import Mathlib

/-!
Verification of pgn-extract-3000 against its natural-language specification.

Each section embeds one region of the C source shallowly in Lean
(pure functions over lists, options and naturals) and proves or refutes
the corresponding specification claim.  Machine integers are modelled as
`Nat` with explicit `% 2^w` where truncation matters; `NULL` pointers of
the C become `Option.none`.
-/

set_option maxHeartbeats 1000000

namespace PgnExtract

/-! ## check_result (pgne/src/grammar.c, lines 176-195)

`check_result(Tags, terminating_result)` reconciles the `Result` tag with
the terminating result of the move text.  Only the `RESULT_TAG` slot of the
tag array is read or written, so the embedding takes that slot alone.
A `NULL` tag or a `NULL` terminating result is `none`. -/

/-- Embedding of `check_result`: first the short form `1/2` in the tag is
rewritten to `1/2-1/2`; then, if a terminating result is present and the
(possibly rewritten) tag is absent, empty or `?`, a copy of the terminating
result is stored in the tag; otherwise the tag is left alone. -/
def check_result (resultTag : Option String) (terminating : Option String) :
    Option String :=
  let rt : Option String :=
    match resultTag with
    | some s => if s = "1/2" then some "1/2-1/2" else some s
    | none => none
  match terminating with
  | some tr =>
    match rt with
    | none => some tr
    | some s => if s = "" ∨ s = "?" then some tr else some s
  | none => rt

/-- C8: a Result tag that is present, non-empty, not `?` and not the short
form `1/2` survives `check_result` unchanged whatever the terminating result
is; the terminating result is copied into the tag exactly when the tag is
absent, empty or `?`, and a tag `1/2` is rewritten to `1/2-1/2` (and then
kept in preference to the terminating result). -/
theorem check_result_frame (tag : String) (tr : Option String)
    (hne : tag ≠ "") (hq : tag ≠ "?") (hh : tag ≠ "1/2") :
    check_result (some tag) tr = some tag ∧
    (∀ t : String,
      check_result none (some t) = some t ∧
      check_result (some "") (some t) = some t ∧
      check_result (some "?") (some t) = some t ∧
      check_result (some "1/2") (some t) = some "1/2-1/2") := by
  constructor
  · cases tr with
    | none => simp [check_result, hh]
    | some t => simp [check_result, hh, hne, hq]
  · intro t
    refine ⟨rfl, ?_, ?_, ?_⟩ <;> simp [check_result]

/-- Witness for `check_result_frame` at a concrete tag value. -/
theorem check_result_frame_witness :
    check_result (some "1-0") (some "0-1") = some "1-0" :=
  (check_result_frame "1-0" (some "0-1") (by decide) (by decide)
    (by decide)).1

/-! ## Hash serialisation (src/output.c, lines 952-965 and 1712-1721)

Per-move hashcode comments are printed with `"%016" PRIx64` applied to the
64-bit `move_details->zobrist`; the `HashCode` tag is produced by
`add_hashcode_tag` with `sprintf(formatted_code, "%08x", (unsigned)hashcode)`,
i.e. the cumulative hash truncated to 32 bits and printed with eight hex
digits. -/

/-- Lower-case hexadecimal digit for a value below 16 (digit `n % 16`). -/
def hexDigit (n : Nat) : Char :=
  let m := n % 16
  if m < 10 then Char.ofNat (48 + m) else Char.ofNat (87 + m)

/-- Numeric value of a lower-case hexadecimal digit character. -/
def hexDigitVal (c : Char) : Nat :=
  if 48 ≤ c.toNat ∧ c.toNat ≤ 57 then c.toNat - 48
  else if 97 ≤ c.toNat ∧ c.toNat ≤ 102 then c.toNat - 87
  else 0

/-- The `width` least significant hexadecimal digits of `n`, most significant
first: the zero-padded rendering `%0<width>x` produces exactly this list when
`n < 16 ^ width`. -/
def hexChars : Nat → Nat → List Char
  | 0, _ => []
  | w + 1, n => hexChars w (n / 16) ++ [hexDigit (n % 16)]

/-- Decode a most-significant-first list of hexadecimal digit characters. -/
def hexDecode (l : List Char) : Nat :=
  l.foldl (fun a c => 16 * a + hexDigitVal c) 0

/-- Text printed for a per-move hashcode comment (`%016 PRIx64` of the
64-bit zobrist value): used identically by the JSON, TSV and PGN-comment
branches of `print_items_following_move`. -/
def moveHashCommentText (zobrist : Nat) : String :=
  ⟨hexChars 16 (zobrist % 2 ^ 64)⟩

/-- Text stored in the `HashCode` tag by `add_hashcode_tag`:
`%08x` of `(unsigned)hashcode`, i.e. of the low 32 bits. -/
def hashcodeTagText (cumulative : Nat) : String :=
  ⟨hexChars 8 (cumulative % 2 ^ 32)⟩

theorem hexDigitVal_hexDigit (n : Nat) : hexDigitVal (hexDigit n) = n % 16 := by
  have h : n % 16 < 16 := Nat.mod_lt _ (by norm_num)
  unfold hexDigit hexDigitVal
  interval_cases h : n % 16 <;> decide

theorem hexDecode_append (l : List Char) (c : Char) :
    hexDecode (l ++ [c]) = 16 * hexDecode l + hexDigitVal c := by
  simp [hexDecode, List.foldl_append]

theorem hexChars_length (w n : Nat) : (hexChars w n).length = w := by
  induction w generalizing n with
  | zero => rfl
  | succ w ih => simp [hexChars, ih]

theorem hexDecode_hexChars (w n : Nat) :
    hexDecode (hexChars w n) = n % 16 ^ w := by
  induction w generalizing n with
  | zero => simp [hexChars, hexDecode, Nat.mod_one]
  | succ w ih =>
    rw [hexChars, hexDecode_append, ih, hexDigitVal_hexDigit, pow_succ,
      mul_comm ((16 : Nat) ^ w) 16, Nat.mod_mul]
    omega

/-- C5 (counterexample): the `HashCode` tag produced by `add_hashcode_tag`
is *not* the 64-bit hexadecimal serialisation of the cumulative hash: for
the cumulative hash `2^32 + 5` the tag text is the eight-digit `00000005`
(only the low 32 bits survive the `(unsigned)` cast), while the 64-bit
serialisation used for the per-move hashcode comments is
`0000000100000005`. -/
theorem add_hashcode_tag_truncates :
    hashcodeTagText (2 ^ 32 + 5) = "00000005" ∧
    moveHashCommentText (2 ^ 32 + 5) = "0000000100000005" ∧
    hashcodeTagText (2 ^ 32 + 5) ≠ moveHashCommentText (2 ^ 32 + 5) ∧
    hexDecode (hashcodeTagText (2 ^ 32 + 5)).data ≠ (2 ^ 32 + 5) % 2 ^ 64 := by
  refine ⟨by decide, by decide, by decide, by decide⟩

/-- C5 (amended): the per-move hashcode comments serialise the full 64-bit
zobrist value as exactly 16 hexadecimal digits, most significant first
(decoding the digits most-significant-first recovers `zobrist % 2^64`);
the `HashCode` tag, by contrast, serialises only the low 32 bits of the
cumulative hash as exactly 8 hexadecimal digits, most significant first. -/
theorem hash_serialisation (z c : Nat) :
    (moveHashCommentText z).length = 16 ∧
    hexDecode (moveHashCommentText z).data = z % 2 ^ 64 ∧
    (hashcodeTagText c).length = 8 ∧
    hexDecode (hashcodeTagText c).data = c % 2 ^ 32 := by
  have h64 : (16 : Nat) ^ 16 = 2 ^ 64 := by norm_num
  have h32 : (16 : Nat) ^ 8 = 2 ^ 32 := by norm_num
  refine ⟨?_, ?_, ?_, ?_⟩
  · show (hexChars 16 (z % 2 ^ 64)).length = 16
    exact hexChars_length 16 _
  · show hexDecode (hexChars 16 (z % 2 ^ 64)) = z % 2 ^ 64
    rw [hexDecode_hexChars, h64]; exact Nat.mod_mod_of_dvd z dvd_rfl
  · show (hexChars 8 (c % 2 ^ 32)).length = 8
    exact hexChars_length 8 _
  · show hexDecode (hexChars 8 (c % 2 ^ 32)) = c % 2 ^ 32
    rw [hexDecode_hexChars, h32]; exact Nat.mod_mod_of_dvd c dvd_rfl

/-! ## The line-wrapping writer (src/output.c, lines 374-452)

The writer buffers the current line in `output_line` (`buf` below, its
first `line_length` characters) and writes completed lines to the output
file (`out` below, the byte stream written to `fp` so far).  When
`max_line_length == 0` every primitive bypasses the buffer and writes
straight through. -/

/-- State of the line-wrapping writer: the line accumulator `output_line`
(up to `line_length`) and the byte stream already written to the file. -/
structure WriterState where
  buf : List Char
  out : List Char
deriving DecidableEq, Repr

/-- Trailing spaces removed, as by the `while` loop of `terminate_line`. -/
def stripTrail (l : List Char) : List Char :=
  (l.reverse.dropWhile (fun c => c = ' ')).reverse

/-- Embedding of `terminate_line`: with wrapping disabled just emit a
newline; otherwise strip trailing spaces from the accumulator and, if
anything is left, write it followed by a newline and reset the
accumulator. -/
def terminate_line (max : Nat) (s : WriterState) : WriterState :=
  if max = 0 then { s with out := s.out ++ [Char.ofNat 10] }
  else if stripTrail s.buf = [] then { s with buf := [] }
  else { buf := [], out := s.out ++ stripTrail s.buf ++ [Char.ofNat 10] }

/-- Embedding of `check_line_length`: flush the accumulator when `len`
more characters would overflow a non-zero `max_line_length`. -/
def check_line_length (max : Nat) (len : Nat) (s : WriterState) :
    WriterState :=
  if s.buf.length + len > max ∧ max ≠ 0 then terminate_line max s else s

/-- Embedding of `print_single_char`. -/
def print_single_char (max : Nat) (ch : Char) (s : WriterState) :
    WriterState :=
  if max = 0 then { s with out := s.out ++ [ch] }
  else
    let s1 := check_line_length max 1 s
    { s1 with buf := s1.buf ++ [ch] }

/-- Embedding of `print_separator`: a space is appended only when the
accumulator is non-empty and does not already end in a space. -/
def print_separator (max : Nat) (s : WriterState) : WriterState :=
  if max = 0 then { s with out := s.out ++ [' '] }
  else
    let s1 := check_line_length max 2 s
    if s1.buf ≠ [] ∧ s1.buf.getLast? ≠ some ' ' then
      { s1 with buf := s1.buf ++ [' '] }
    else s1

/-- Embedding of `print_str`: with wrapping enabled, a string longer than
`max_line_length` is (after the flush from `check_line_length`) written
directly to the file followed by a newline; otherwise it is appended to
the accumulator. -/
def print_str (max : Nat) (str : List Char) (s : WriterState) :
    WriterState :=
  if max = 0 then { s with out := s.out ++ str }
  else
    let s1 := check_line_length max str.length s
    if str.length > max then
      { s1 with out := s1.out ++ str ++ [Char.ofNat 10] }
    else { s1 with buf := s1.buf ++ str }

/-- One call to the writer interface. -/
inductive WriteOp where
  | str : List Char → WriteOp
  | sep : WriteOp
  | chr : Char → WriteOp
  | term : WriteOp
deriving DecidableEq, Repr

/-- Run a sequence of writer calls. -/
def runWriter (max : Nat) (ops : List WriteOp) (s : WriterState) :
    WriterState :=
  ops.foldl
    (fun st op =>
      match op with
      | WriteOp.str t => print_str max t st
      | WriteOp.sep => print_separator max st
      | WriteOp.chr c => print_single_char max c st
      | WriteOp.term => terminate_line max st)
    s

/-- One step of the line splitter. -/
def stepSL (acc : List (List Char) × List Char) (c : Char) :
    List (List Char) × List Char :=
  if c = Char.ofNat 10 then (acc.1 ++ [acc.2], []) else (acc.1, acc.2 ++ [c])

/-- Split a byte stream into the newline-terminated lines (first
component) and the trailing partial line (second component). -/
def splitLines (l : List Char) : List (List Char) × List Char :=
  l.foldl stepSL ([], [])

/-- The newline-terminated lines of the stream written so far. -/
def emittedLines (l : List Char) : List (List Char) := (splitLines l).1

/-- The bytes a writer call would send with wrapping disabled. -/
def opBytes : WriteOp → List Char
  | WriteOp.str t => t
  | WriteOp.sep => [' ']
  | WriteOp.chr c => [c]
  | WriteOp.term => [Char.ofNat 10]

/-- A well-behaved writer call: strings fit on a line and no payload
smuggles a raw newline past the accumulator. -/
def opOK (max : Nat) : WriteOp → Bool
  | WriteOp.str t => decide (t.length ≤ max) && t.all (fun c => c ≠ Char.ofNat 10)
  | WriteOp.sep => true
  | WriteOp.chr c => decide (c ≠ Char.ofNat 10)
  | WriteOp.term => true

/-- Bytes sent with wrapping disabled, one call after another. -/
def rawBytes (ops : List WriteOp) : List Char :=
  ops.foldr (fun op acc => opBytes op ++ acc) []

theorem foldl_stepSL_no_newline (seg : List Char)
    (h : ∀ c ∈ seg, c ≠ Char.ofNat 10) :
    ∀ init : List (List Char) × List Char,
      seg.foldl stepSL init = (init.1, init.2 ++ seg) := by
  induction seg with
  | nil => intro init; simp
  | cons c rest ih =>
    intro init
    have hc : c ≠ Char.ofNat 10 := h c (List.mem_cons_self c rest)
    have hr : ∀ x ∈ rest, x ≠ Char.ofNat 10 := fun x hx =>
      h x (List.mem_cons_of_mem c hx)
    simp [List.foldl_cons, stepSL, hc, ih hr]

theorem splitLines_append_line (out seg : List Char)
    (h : ∀ c ∈ seg, c ≠ Char.ofNat 10) :
    splitLines (out ++ seg ++ [Char.ofNat 10]) =
      ((splitLines out).1 ++ [(splitLines out).2 ++ seg], []) := by
  have h1 : splitLines (out ++ seg ++ [Char.ofNat 10]) =
      (seg ++ [Char.ofNat 10]).foldl stepSL (splitLines out) := by
    rw [List.append_assoc]
    exact List.foldl_append ..
  rw [h1, List.foldl_append, foldl_stepSL_no_newline seg h]
  simp [stepSL]

theorem stripTrail_length_le (l : List Char) :
    (stripTrail l).length ≤ l.length := by
  have h := (List.dropWhile_sublist (l := l.reverse)
    (p := fun c => c = ' ')).length_le
  simpa [stripTrail] using h

theorem head?_dropWhile_false {α : Type} (p : α → Bool) (l : List α) :
    ∀ a, (l.dropWhile p).head? = some a → p a = false := by
  induction l with
  | nil => intro a h; simp at h
  | cons x rest ih =>
    intro a h
    by_cases hx : p x
    · rw [List.dropWhile_cons_of_pos hx] at h
      exact ih a h
    · rw [List.dropWhile_cons_of_neg hx] at h
      simp at h
      rw [← h]
      exact Bool.of_not_eq_true hx

theorem stripTrail_getLast?_ne_space (l : List Char) :
    (stripTrail l).getLast? ≠ some ' ' := by
  intro hcon
  have h1 : (l.reverse.dropWhile (fun c => c = ' ')).head? = some ' ' := by
    have h := List.head?_reverse (stripTrail l)
    rw [hcon] at h
    simpa [stripTrail] using h
  have := head?_dropWhile_false (fun c => c = ' ') l.reverse ' ' h1
  simp at this

theorem stripTrail_subset (l : List Char) :
    ∀ c ∈ stripTrail l, c ∈ l := by
  intro c hc
  have h1 : c ∈ l.reverse.dropWhile (fun c => c = ' ') := by
    simpa [stripTrail] using hc
  have h2 : c ∈ l.reverse :=
    (List.dropWhile_sublist (l := l.reverse) (p := fun c => c = ' ')).subset h1
  simpa using h2

/-- The invariant maintained by the wrapping writer when
`max_line_length = max ≠ 0`: the accumulator fits on one line and is
newline-free, the file contents end at a line boundary, and every line
already written respects the claimed bounds. -/
def WriterInv (max : Nat) (s : WriterState) : Prop :=
  s.buf.length ≤ max ∧ (∀ c ∈ s.buf, c ≠ Char.ofNat 10) ∧
    (splitLines s.out).2 = [] ∧
    ∀ l ∈ (splitLines s.out).1, l.length ≤ max ∧ l.getLast? ≠ some ' '

theorem terminate_line_inv (max : Nat) (hmax : max ≠ 0) (s : WriterState)
    (h : WriterInv max s) :
    WriterInv max (terminate_line max s) ∧ (terminate_line max s).buf = [] := by
  obtain ⟨hlen, hnl, hpart, hlines⟩ := h
  unfold terminate_line
  rw [if_neg hmax]
  by_cases hb : stripTrail s.buf = []
  · rw [if_pos hb]
    exact ⟨⟨by simp, by simp, hpart, hlines⟩, rfl⟩
  · rw [if_neg hb]
    have hsub : ∀ c ∈ stripTrail s.buf, c ≠ Char.ofNat 10 := fun c hc =>
      hnl c (stripTrail_subset s.buf c hc)
    have hemit := splitLines_append_line s.out (stripTrail s.buf) hsub
    refine ⟨⟨by simp, by simp, ?_, ?_⟩, rfl⟩
    · show (splitLines (s.out ++ stripTrail s.buf ++ [Char.ofNat 10])).2 = []
      rw [hemit]
    · show ∀ l ∈ (splitLines (s.out ++ stripTrail s.buf ++ [Char.ofNat 10])).1,
        l.length ≤ max ∧ l.getLast? ≠ some ' '
      rw [hemit, hpart]
      intro l hl
      rcases List.mem_append.mp hl with hold | hnew
      · exact hlines l hold
      · have heq : l = stripTrail s.buf := by simpa using hnew
        subst heq
        exact ⟨le_trans (stripTrail_length_le s.buf) hlen,
          stripTrail_getLast?_ne_space s.buf⟩

theorem check_line_length_inv (max len : Nat) (hmax : max ≠ 0)
    (s : WriterState) (h : WriterInv max s) :
    WriterInv max (check_line_length max len s) ∧
      ((check_line_length max len s).buf.length + len ≤ max ∨
        (check_line_length max len s).buf = []) := by
  unfold check_line_length
  by_cases hc : s.buf.length + len > max ∧ max ≠ 0
  · rw [if_pos hc]
    have ht := terminate_line_inv max hmax s h
    exact ⟨ht.1, Or.inr ht.2⟩
  · rw [if_neg hc]
    refine ⟨h, Or.inl ?_⟩
    push_neg at hc
    omega

theorem print_single_char_inv (max : Nat) (hmax : max ≠ 0) (ch : Char)
    (hch : ch ≠ Char.ofNat 10) (s : WriterState) (h : WriterInv max s) :
    WriterInv max (print_single_char max ch s) := by
  unfold print_single_char
  rw [if_neg hmax]
  obtain ⟨h1, hrest⟩ := check_line_length_inv max 1 hmax s h
  obtain ⟨hlen, hnl, hout⟩ := h1
  refine ⟨?_, ?_, hout⟩
  · simp only [List.length_append, List.length_cons, List.length_nil]
    rcases hrest with hle | hempty
    · omega
    · rw [hempty]; simp; omega
  · intro c hc
    rcases List.mem_append.mp hc with hin | hone
    · exact hnl c hin
    · have : c = ch := by simpa using hone
      rw [this]; exact hch

theorem print_separator_inv (max : Nat) (hmax : max ≠ 0) (s : WriterState)
    (h : WriterInv max s) : WriterInv max (print_separator max s) := by
  unfold print_separator
  rw [if_neg hmax]
  obtain ⟨h1, hrest⟩ := check_line_length_inv max 2 hmax s h
  obtain ⟨hlen, hnl, hout⟩ := h1
  by_cases hc : (check_line_length max 2 s).buf ≠ [] ∧
      (check_line_length max 2 s).buf.getLast? ≠ some ' '
  · rw [if_pos hc]
    refine ⟨?_, ?_, hout⟩
    · simp only [List.length_append, List.length_cons, List.length_nil]
      rcases hrest with hle | hempty
      · omega
      · exact absurd hempty hc.1
    · intro c hcm
      rcases List.mem_append.mp hcm with hin | hone
      · exact hnl c hin
      · have : c = ' ' := by simpa using hone
        rw [this]; decide
  · rw [if_neg hc]
    exact ⟨hlen, hnl, hout⟩

theorem print_str_inv (max : Nat) (hmax : max ≠ 0) (t : List Char)
    (hfit : t.length ≤ max) (htnl : ∀ c ∈ t, c ≠ Char.ofNat 10)
    (s : WriterState) (h : WriterInv max s) :
    WriterInv max (print_str max t s) := by
  unfold print_str
  rw [if_neg hmax]
  obtain ⟨h1, hrest⟩ := check_line_length_inv max t.length hmax s h
  obtain ⟨hlen, hnl, hout⟩ := h1
  rw [if_neg (by omega : ¬t.length > max)]
  refine ⟨?_, ?_, hout⟩
  · simp only [List.length_append]
    rcases hrest with hle | hempty
    · omega
    · rw [hempty]; simpa using hfit
  · intro c hc
    rcases List.mem_append.mp hc with hin | hint
    · exact hnl c hin
    · exact htnl c hint

theorem runWriter_inv (max : Nat) (hmax : max ≠ 0) (ops : List WriteOp)
    (hops : ∀ op ∈ ops, opOK max op = true) :
    ∀ s : WriterState, WriterInv max s →
      WriterInv max (runWriter max ops s) := by
  induction ops with
  | nil => intro s h; exact h
  | cons op rest ih =>
    intro s h
    have hop : opOK max op = true := hops op (List.mem_cons_self op rest)
    have hrest : ∀ o ∈ rest, opOK max o = true := fun o ho =>
      hops o (List.mem_cons_of_mem op ho)
    cases op with
    | str t =>
      have hb := hop
      simp only [opOK, Bool.and_eq_true, decide_eq_true_eq,
        List.all_eq_true] at hb
      exact ih hrest _ (print_str_inv max hmax t hb.1
        (fun c hc => by simpa using hb.2 c hc) s h)
    | sep => exact ih hrest _ (print_separator_inv max hmax s h)
    | chr c =>
      have hb := hop
      simp only [opOK, decide_eq_true_eq] at hb
      exact ih hrest _ (print_single_char_inv max hmax c hb s h)
    | term => exact ih hrest _ (terminate_line_inv max hmax s h).1

/-- C4 (amended): with a non-zero `max_line_length`, provided every string
handed to `print_str` fits within `max_line_length` (and no payload contains
a raw newline), every line the writer emits is at most `max_line_length`
characters long and does not end in a space; with `max_line_length = 0`
wrapping is disabled and the bytes of every call pass straight through to
the file.  (The proviso is forced by the counterexample: `print_str` prints
a longer string verbatim on a line of its own.) -/
theorem line_wrapping_bounds (max : Nat) (ops : List WriteOp)
    (hmax : max ≠ 0) (hops : ∀ op ∈ ops, opOK max op = true) :
    (∀ l ∈ emittedLines (runWriter max ops ⟨[], []⟩).out,
        l.length ≤ max ∧ l.getLast? ≠ some ' ') ∧
    (∀ ops2 : List WriteOp, ∀ s : WriterState,
        runWriter 0 ops2 s = { s with out := s.out ++ rawBytes ops2 }) := by
  constructor
  · have hinit : WriterInv max ({ buf := [], out := [] } : WriterState) := by
      refine ⟨by simp, by simp, ?_, ?_⟩ <;> simp [splitLines]
    have hfin := runWriter_inv max hmax ops hops _ hinit
    intro l hl
    exact hfin.2.2.2 l hl
  · intro ops2
    induction ops2 with
    | nil => intro s; simp [runWriter, rawBytes]
    | cons op rest ih =>
      intro s
      have hstep : runWriter 0 (op :: rest) s =
          runWriter 0 rest { s with out := s.out ++ opBytes op } := by
        cases op <;>
          simp [runWriter, print_str, print_separator, print_single_char,
            terminate_line, opBytes]
      rw [hstep, ih]
      simp [rawBytes, List.append_assoc]

/-- Witness for `line_wrapping_bounds`: a short string followed by a line
termination, with `max_line_length = 10`. -/
theorem line_wrapping_bounds_witness :
    (10 : Nat) ≠ 0 ∧
    (∀ l ∈ emittedLines
        (runWriter 10 [WriteOp.str [Char.ofNat 104, Char.ofNat 105],
          WriteOp.term] ⟨[], []⟩).out,
        l.length ≤ 10 ∧ l.getLast? ≠ some ' ') :=
  ⟨by decide,
    (line_wrapping_bounds 10
      [WriteOp.str [Char.ofNat 104, Char.ofNat 105], WriteOp.term]
      (by decide) (by decide)).1⟩

/-- C4 (counterexample): with `max_line_length = 1`, printing the
three-character string `"ab "` makes the writer emit the line `ab ` —
longer than `max_line_length` *and* ending in a space — because `print_str`
prints over-long strings verbatim on their own line. -/
theorem line_wrapping_counterexample :
    emittedLines (runWriter 1
        [WriteOp.str [Char.ofNat 97, Char.ofNat 98, Char.ofNat 32]]
        ⟨[], []⟩).out =
      [[Char.ofNat 97, Char.ofNat 98, Char.ofNat 32]] ∧
    ¬ (∀ l ∈ emittedLines (runWriter 1
          [WriteOp.str [Char.ofNat 97, Char.ofNat 98, Char.ofNat 32]]
          ⟨[], []⟩).out,
        l.length ≤ 1 ∧ l.getLast? ≠ some ' ') := by
  constructor
  · decide
  · decide

/-! ## parse_game result handling (pgne/src/grammar.c, lines 383-427)

After the move list has been parsed, `parse_game` reads an optional
hanging comment and an optional `TERMINATING_RESULT`, then decides what to
hand back through `returned_move_list`.  The embedding keeps exactly the
state this code touches: the parsed moves (with their comment lists and
`terminating_result` fields), the hanging comment, the result token and
the `RESULT_TAG` slot. -/

/-- A parsed move as far as the end-of-game code is concerned. -/
structure PMove where
  san : String
  comments : List String
  tres : Option String
deriving DecidableEq, Repr

/-- Append a hanging comment to the comment list of the last move. -/
def addHangingToLast : List PMove → List String → List PMove
  | [], _ => []
  | [m], h => [{ m with comments := m.comments ++ h }]
  | m :: rest, h => m :: addHangingToLast rest h

/-- Store the terminating result on the last move. -/
def setLastTres : List PMove → String → List PMove
  | [], _ => []
  | [m], r => [{ m with tres := some r }]
  | m :: rest, r => m :: setLastTres rest r

/-- Embedding of the tail of `parse_game` (from the
`parse_opt_comment_list` before the result to the end of the function):
returns the move list handed back via `returned_move_list`, the final
`RESULT_TAG` value and the log lines written. -/
def parse_game_end (ml : List PMove) (hanging : List String)
    (result : Option String) (resultTag : Option String) :
    Option (List PMove) × Option String × List String :=
  if ml = [] then
    (none, check_result resultTag result, [])
  else
    match result with
    | some r =>
      (some (setLastTres (addHangingToLast ml hanging) r),
        check_result resultTag (some r), [])
    | none => (none, resultTag, ["Missing result."])

/-- C2 (counterexample): a game with the single move `e4`, no terminating
result and a Result tag `1-0` is *not* retained: `parse_game` hands back no
move list at all (the claim would require the moves to be kept with `1-0`
as the terminating result), and when the tag is also absent the game is
reported (`Missing result.`) but its parsed moves are still dropped. -/
theorem parse_game_missing_result_counterexample :
    (parse_game_end [⟨"e4", [], none⟩] [] none (some "1-0")).1 = none ∧
    (parse_game_end [⟨"e4", [], none⟩] [] none (some "1-0")).1 ≠
      some [⟨"e4", [], some "1-0"⟩] ∧
    (parse_game_end [⟨"e4", [], none⟩] [] none none).1 = none ∧
    (parse_game_end [⟨"e4", [], none⟩] [] none none).2.2 =
      ["Missing result."] := by
  refine ⟨rfl, by decide, rfl, rfl⟩

/-- C2 (amended): for a game with a non-empty move list, a present
terminating result is attached to the last move (after the hanging comment
is appended) and reconciled with the Result tag via `check_result`; when
the terminating result is missing the game is reported as malformed
(`Missing result.`), the Result tag is left untouched, and the parsed
moves are *discarded* — `parse_game` returns no move list, so the game is
processed downstream as if it had no moves. -/
theorem parse_game_end_spec (ml : List PMove) (hanging : List String)
    (resultTag : Option String) (hne : ml ≠ []) :
    parse_game_end ml hanging none resultTag =
      (none, resultTag, ["Missing result."]) ∧
    (∀ r : String,
      parse_game_end ml hanging (some r) resultTag =
        (some (setLastTres (addHangingToLast ml hanging) r),
          check_result resultTag (some r), [])) := by
  constructor
  · unfold parse_game_end
    rw [if_neg hne]
  · intro r
    unfold parse_game_end
    rw [if_neg hne]

/-- Witness for `parse_game_end_spec` on a one-move game. -/
theorem parse_game_end_spec_witness :
    parse_game_end [⟨"d4", [], none⟩] [] none (some "1/2-1/2") =
      (none, some "1/2-1/2", ["Missing result."]) :=
  (parse_game_end_spec [⟨"d4", [], none⟩] [] (some "1/2-1/2")
    (by decide)).1

/-! ## extract_game_number_list (src/argsfile.c, lines 1621-1680)

The `--selectonly` / `--skipmatching` argument is tokenised with
`strtok(csv, ",")` (consecutive, leading and trailing commas collapse:
only the non-empty segments are tokens) and each token is read with
`sscanf("%lu:%lu")` when it contains a colon anywhere, else with
`sscanf("%lu")`.  `sscanf` is modelled by its C contract: skip leading
white space, accept an optional sign, require at least one decimal digit,
ignore everything after the digits (a literal `:` in the format must match
the very next character); out-of-range magnitudes clamp to `ULONG_MAX`
(glibc `strtoul`) and a negative sign converts modulo `2^64`. -/

/-- White space as C `isspace` in the default locale. -/
def cIsSpace (c : Char) : Bool :=
  c = Char.ofNat 32 ∨ c = Char.ofNat 9 ∨ c = Char.ofNat 10 ∨
    c = Char.ofNat 11 ∨ c = Char.ofNat 12 ∨ c = Char.ofNat 13

/-- Decimal value of a digit string, most significant first. -/
def digitsVal (l : List Char) : Nat :=
  l.foldl (fun a c => 10 * a + (c.toNat - 48)) 0

/-- `sscanf("%lu")` on the given characters: the converted value and the
unconsumed remainder, or `none` when no digits are found. -/
def scanULong (l : List Char) : Option (Nat × List Char) :=
  let l1 := l.dropWhile cIsSpace
  let signAndRest : Bool × List Char :=
    match l1 with
    | c :: rest =>
      if c = Char.ofNat 45 then (true, rest)
      else if c = Char.ofNat 43 then (false, rest)
      else (false, l1)
    | [] => (false, [])
  let ds := signAndRest.2.takeWhile Char.isDigit
  if ds = [] then none
  else
    let dv := digitsVal ds
    let mag := if dv < 2 ^ 64 then dv else 2 ^ 64 - 1
    let v := if signAndRest.1 then (2 ^ 64 - mag % 2 ^ 64) % 2 ^ 64 else mag
    some (v, signAndRest.2.dropWhile Char.isDigit)

/-- `sscanf("%lu:%lu")` succeeding with two conversions: the colon of the
format must match the character immediately after the first number. -/
def scanTwoULong (l : List Char) : Option (Nat × Nat) :=
  match scanULong l with
  | none => none
  | some (n, rest) =>
    match rest with
    | c :: rest2 =>
      if c = Char.ofNat 58 then
        match scanULong rest2 with
        | some (m, _) => some (n, m)
        | none => none
      else none
    | [] => none

/-- The `strtok(csv, ",")` tokens: the non-empty comma-separated segments. -/
def commaTokens (l : List Char) : List (List Char) :=
  (l.splitOn (Char.ofNat 44)).filter (fun t => ¬t.isEmpty)

/-- Handling of one token of `extract_game_number_list`: the token is read
as `N:M` when it contains a colon anywhere, else as `N`; the result is the
accepted `(min, max)` pair, or `none` when the conversion fails or the
ascending-order side condition against `last_number` is violated. -/
def tokenRange (tok : List Char) (last : Nat) : Option (Nat × Nat) :=
  if tok.contains (Char.ofNat 58) then
    match scanTwoULong tok with
    | some (mn, mx) => if last < mn ∧ mn ≤ mx then some (mn, mx) else none
    | none => none
  else
    match scanULong tok with
    | some (mn, _) => if last < mn then some (mn, mn) else none
    | none => none

/-- The token loop of `extract_game_number_list`, carrying `last_number`. -/
def extractLoop : List (List Char) → Nat → Option (List (Nat × Nat))
  | [], _ => some []
  | tok :: rest, last =>
    match tokenRange tok last with
    | some (mn, mx) =>
      match extractLoop rest mx with
      | some rs => some ((mn, mx) :: rs)
      | none => none
    | none => none

/-- Embedding of `extract_game_number_list`: `none` models the `NULL`
return (either a malformed list, after which the partial list is freed, or
an input with no token at all, where `head` is still `NULL`); the callers
in `process_long_form_argument` exit with code 1 on `none`. -/
def extract_game_number_list (s : String) : Option (List (Nat × Nat)) :=
  match extractLoop (commaTokens s.data) 0 with
  | some [] => none
  | some rs => some rs
  | none => none

/-- The claim's reading of a well-formed range string, built from the
spec's words: a comma-separated sequence of ranges, each `N` (digits) or
`N:M` (digits, one colon, digits) with `N ≤ M`, every `N` strictly greater
than all numbers of the preceding ranges. -/
def claimRangeVals (tok : List Char) : Option (Nat × Nat) :=
  match tok.splitOn (Char.ofNat 58) with
  | [a] =>
    if ¬a.isEmpty ∧ a.all Char.isDigit then some (digitsVal a, digitsVal a)
    else none
  | [a, b] =>
    if ¬a.isEmpty ∧ a.all Char.isDigit ∧ ¬b.isEmpty ∧ b.all Char.isDigit then
      some (digitsVal a, digitsVal b)
    else none
  | _ => none

/-- Loop of the claim-side well-formedness check. -/
def claimLoop : List (List Char) → Nat → Bool
  | [], _ => true
  | tok :: rest, last =>
    match claimRangeVals tok with
    | some (n, m) => decide (last < n) && decide (n ≤ m) && claimLoop rest m
    | none => false

/-- The claim-side well-formedness predicate for the whole argument,
following the claim's words (the segments of the string itself, not the
`strtok` tokens, must each be a range). -/
def claimWellFormed (s : String) : Bool :=
  let toks := s.data.splitOn (Char.ofNat 44)
  ¬toks.isEmpty && claimLoop toks 0

/-- C7 (counterexample): the string `5x` is not a comma-separated sequence
of ranges of the form `N` or `N:M`, yet `extract_game_number_list`
accepts it (as the single range `5`), because `sscanf("%lu")` ignores
everything after the digits.  The claimed equivalence between acceptance
and well-formedness therefore fails. -/
theorem extract_game_number_list_counterexample :
    extract_game_number_list "5x" = some [(5, 5)] ∧
    claimWellFormed "5x" = false := by
  constructor
  · rfl
  · rfl

/-- Ranges are positive, internally ordered and strictly ascending with no
overlap: each minimum exceeds the bound `last` and every number of the
preceding ranges. -/
def RangesOK : Nat → List (Nat × Nat) → Prop
  | _, [] => True
  | last, (n, m) :: rest => last < n ∧ n ≤ m ∧ RangesOK m rest

/-- Declarative acceptance of the token list: each token scans per
`sscanf` as `N` (no colon anywhere) or `N:M` (colon present, both numbers
converted), ascending with `N ≤ M`. -/
inductive GoodTokens : Nat → List (List Char) → Prop where
  | nil : ∀ last, GoodTokens last []
  | single : ∀ last tok toks n rest,
      tok.contains (Char.ofNat 58) = false →
      scanULong tok = some (n, rest) → last < n → GoodTokens n toks →
      GoodTokens last (tok :: toks)
  | pair : ∀ last tok toks n m,
      tok.contains (Char.ofNat 58) = true →
      scanTwoULong tok = some (n, m) → last < n → n ≤ m →
      GoodTokens m toks → GoodTokens last (tok :: toks)

theorem tokenRange_bounds (tok : List Char) (last mn mx : Nat)
    (h : tokenRange tok last = some (mn, mx)) : last < mn ∧ mn ≤ mx := by
  unfold tokenRange at h
  by_cases hc : tok.contains (Char.ofNat 58)
  · rw [if_pos hc] at h
    cases h2 : scanTwoULong tok with
    | none => rw [h2] at h; exact absurd h (by simp)
    | some p =>
      obtain ⟨a, b⟩ := p
      rw [h2] at h
      simp only at h
      by_cases hcond : last < a ∧ a ≤ b
      · rw [if_pos hcond] at h
        have h3 : a = mn ∧ b = mx := by simpa using h
        omega
      · rw [if_neg hcond] at h; exact absurd h (by simp)
  · rw [if_neg hc] at h
    cases h2 : scanULong tok with
    | none => rw [h2] at h; exact absurd h (by simp)
    | some p =>
      obtain ⟨a, r⟩ := p
      rw [h2] at h
      simp only at h
      by_cases hcond : last < a
      · rw [if_pos hcond] at h
        have h3 : a = mn ∧ a = mx := by simpa using h
        omega
      · rw [if_neg hcond] at h; exact absurd h (by simp)

theorem tokenRange_isSome_cases (tok : List Char) (last : Nat)
    (h : (tokenRange tok last).isSome) :
    (∃ n m, tok.contains (Char.ofNat 58) = true ∧
        scanTwoULong tok = some (n, m) ∧ last < n ∧ n ≤ m) ∨
    (∃ n rest, tok.contains (Char.ofNat 58) = false ∧
        scanULong tok = some (n, rest) ∧ last < n) := by
  unfold tokenRange at h
  by_cases hc : tok.contains (Char.ofNat 58)
  · rw [if_pos hc] at h
    cases h2 : scanTwoULong tok with
    | none => rw [h2] at h; exact absurd h (by simp)
    | some p =>
      obtain ⟨a, b⟩ := p
      rw [h2] at h
      simp only at h
      by_cases hcond : last < a ∧ a ≤ b
      · exact Or.inl ⟨a, b, hc, rfl, hcond.1, hcond.2⟩
      · rw [if_neg hcond] at h; exact absurd h (by simp)
  · rw [if_neg hc] at h
    cases h2 : scanULong tok with
    | none => rw [h2] at h; exact absurd h (by simp)
    | some p =>
      obtain ⟨a, r⟩ := p
      rw [h2] at h
      simp only at h
      by_cases hcond : last < a
      · exact Or.inr ⟨a, r, Bool.of_not_eq_true hc, rfl, hcond⟩
      · rw [if_neg hcond] at h; exact absurd h (by simp)

theorem tokenRange_of_pair (tok : List Char) (last n m : Nat)
    (hc : tok.contains (Char.ofNat 58) = true)
    (h2 : scanTwoULong tok = some (n, m)) (hlt : last < n) (hle : n ≤ m) :
    tokenRange tok last = some (n, m) := by
  unfold tokenRange
  rw [if_pos hc, h2]
  simp only
  rw [if_pos ⟨hlt, hle⟩]

theorem tokenRange_of_single (tok : List Char) (last n : Nat)
    (rest : List Char) (hc : tok.contains (Char.ofNat 58) = false)
    (h2 : scanULong tok = some (n, rest)) (hlt : last < n) :
    tokenRange tok last = some (n, n) := by
  unfold tokenRange
  rw [if_neg (by rw [hc]; exact Bool.false_ne_true), h2]
  simp only
  rw [if_pos hlt]

theorem extractLoop_ranges_ok (toks : List (List Char)) :
    ∀ last rs, extractLoop toks last = some rs → RangesOK last rs := by
  induction toks with
  | nil =>
    intro last rs h
    simp [extractLoop] at h
    subst h
    trivial
  | cons tok rest ih =>
    intro last rs h
    unfold extractLoop at h
    cases h1 : tokenRange tok last with
    | none => rw [h1] at h; exact absurd h (by simp)
    | some p =>
      obtain ⟨mn, mx⟩ := p
      rw [h1] at h
      simp only at h
      cases h3 : extractLoop rest mx with
      | none => rw [h3] at h; exact absurd h (by simp)
      | some rs2 =>
        rw [h3] at h
        simp only [Option.some.injEq] at h
        subst h
        have hb := tokenRange_bounds tok last mn mx h1
        exact ⟨hb.1, hb.2, ih mx rs2 h3⟩

theorem extractLoop_isSome_iff (toks : List (List Char)) :
    ∀ last, (extractLoop toks last).isSome ↔ GoodTokens last toks := by
  induction toks with
  | nil =>
    intro last
    simp [extractLoop]
    exact GoodTokens.nil last
  | cons tok rest ih =>
    intro last
    constructor
    · intro h
      unfold extractLoop at h
      cases h1 : tokenRange tok last with
      | none => rw [h1] at h; exact absurd h (by simp)
      | some p =>
        obtain ⟨mn, mx⟩ := p
        rw [h1] at h
        simp only at h
        cases h3 : extractLoop rest mx with
        | none => rw [h3] at h; exact absurd h (by simp)
        | some rs2 =>
          have hrest : GoodTokens mx rest := (ih mx).mp (by rw [h3]; rfl)
          rcases tokenRange_isSome_cases tok last (by rw [h1]; rfl) with
            ⟨a, b, hc, h2, hlt, hle⟩ | ⟨a, r, hc, h2, hlt⟩
          · have hab : a = mn ∧ b = mx := by
              have heq := tokenRange_of_pair tok last a b hc h2 hlt hle
              rw [h1] at heq
              simpa using heq.symm
            exact GoodTokens.pair last tok rest a b hc h2 hlt hle
              (by rw [hab.2]; exact hrest)
          · have hab : a = mn ∧ a = mx := by
              have heq := tokenRange_of_single tok last a r hc h2 hlt
              rw [h1] at heq
              simpa using heq.symm
            exact GoodTokens.single last tok rest a r hc h2 hlt
              (by rw [← hab.2] at hrest; exact hrest)
    · intro h
      cases h with
      | single last tok2 toks2 n rest2 hc h2 hlt hrest =>
        have hr : (extractLoop rest n).isSome := (ih n).mpr hrest
        unfold extractLoop
        rw [tokenRange_of_single tok last n rest2 hc h2 hlt]
        simp only
        cases h3 : extractLoop rest n with
        | none => rw [h3] at hr; exact absurd hr (by simp)
        | some rs2 => simp
      | pair last tok2 toks2 n m hc h2 hlt hle hrest =>
        have hr : (extractLoop rest m).isSome := (ih m).mpr hrest
        unfold extractLoop
        rw [tokenRange_of_pair tok last n m hc h2 hlt hle]
        simp only
        cases h3 : extractLoop rest m with
        | none => rw [h3] at hr; exact absurd hr (by simp)
        | some rs2 => simp

/-- C7 (amended): `extract_game_number_list` returns a non-`NULL` list
exactly when the (non-empty) `strtok` comma-tokens of the argument are a
non-empty sequence each of which `sscanf`-converts to `N` (no colon) or
`N:M` (colon immediately after `N`, both converted) with `N ≤ M` and every
`N` strictly greater than the preceding upper bound -- trailing text after
the converted numbers is ignored, as are empty comma-segments; any other
input yields `NULL` (the partial list is freed) and exit code 1.  Every
returned list consists of positive, internally ordered, strictly
ascending, non-overlapping ranges. -/
theorem extract_game_number_list_spec (s : String) :
    ((extract_game_number_list s).isSome ↔
      commaTokens s.data ≠ [] ∧ GoodTokens 0 (commaTokens s.data)) ∧
    (∀ rs, extract_game_number_list s = some rs →
      rs ≠ [] ∧ RangesOK 0 rs) := by
  constructor
  · unfold extract_game_number_list
    cases h : extractLoop (commaTokens s.data) 0 with
    | none =>
      have h2 : ¬GoodTokens 0 (commaTokens s.data) := by
        intro hg
        have := (extractLoop_isSome_iff (commaTokens s.data) 0).mpr hg
        rw [h] at this
        exact absurd this (by simp)
      simp [h2]
    | some rs =>
      have hg : GoodTokens 0 (commaTokens s.data) :=
        (extractLoop_isSome_iff (commaTokens s.data) 0).mp (by rw [h]; rfl)
      cases rs with
      | nil =>
        have hne : commaTokens s.data = [] := by
          cases htoks : commaTokens s.data with
          | nil => rfl
          | cons t ts =>
            rw [htoks] at h
            unfold extractLoop at h
            cases h1 : tokenRange t 0 with
            | none => rw [h1] at h; exact absurd h (by simp)
            | some p =>
              obtain ⟨mn, mx⟩ := p
              rw [h1] at h
              simp only at h
              cases h3 : extractLoop ts mx with
              | none => rw [h3] at h; exact absurd h (by simp)
              | some rs2 => rw [h3] at h; exact absurd h (by simp)
        simp [hne]
      | cons r rs2 =>
        simp
        constructor
        · intro hcon
          rw [hcon] at h
          unfold extractLoop at h
          exact absurd h (by simp)
        · exact hg
  · intro rs hrs
    unfold extract_game_number_list at hrs
    cases h : extractLoop (commaTokens s.data) 0 with
    | none => rw [h] at hrs; exact absurd hrs (by simp)
    | some rs0 =>
      rw [h] at hrs
      cases rs0 with
      | nil => exact absurd hrs (by simp)
      | cons r rs2 =>
        simp at hrs
        rw [← hrs]
        exact ⟨by simp, extractLoop_ranges_ok (commaTokens s.data) 0 _ h⟩

/-- Witness for `extract_game_number_list_spec` on the argument
`1:3,5`: the parse succeeds and yields ascending, non-overlapping,
internally ordered ranges. -/
theorem extract_game_number_list_spec_witness :
    extract_game_number_list "1:3,5" = some [(1, 3), (5, 5)] ∧
    ([(1, 3), (5, 5)] : List (Nat × Nat)) ≠ [] ∧
    RangesOK 0 [(1, 3), (5, 5)] :=
  ⟨rfl, (extract_game_number_list_spec "1:3,5").2 [(1, 3), (5, 5)] rfl⟩

/-! ## The Filter Engine chain (pgne/src/grammar.c, lines 1069-1082)

`deal_with_game` accepts a game through one short-circuit `&&` chain:
`consistent_FEN_tags && check_tag_details_not_ECO && check_setup_tag &&
check_duplicate_setup && apply_move_list && check_move_bounds &&
check_textual_variations && check_for_material_match &&
check_for_only_checkmate && check_for_only_repetition && check_ECO_tag &&
check_for_comments`.  The stalemate-only, insufficient-material-only and
N-move-rule predicates are evaluated inside `apply_move_list` (declared in
`moves.h`, defined in `moves.c`, called from the interpreter in `apply.c`,
which is not part of this tree). -/

/-- The fifteen filter predicates of the specification. -/
inductive FilterPred where
  | fenTagsConsistent
  | tagRosterMatch
  | setupTagPolicy
  | duplicateSetup
  | moveListInterpretation
  | moveCountBounds
  | textualVariation
  | materialMatch
  | checkmateOnly
  | stalemateOnly
  | insufficientOnly
  | repetition
  | nMoveRule
  | ecoTagMatch
  | hasComment
deriving DecidableEq, Repr

/-- Outcome of each enabled predicate on the current game (each `check_*`
function returns `true` when its filter is disabled, so `true` here means
"the enabled predicate accepts, or the predicate is disabled"). -/
def FilterOutcomes : Type := FilterPred → Bool

/-- Modelled from the spec: the fixed evaluation order of the Filter
Engine.  The twelve `&&` conjuncts of `deal_with_game`
(grammar.c:1069-1082) fix the relative order of all predicates except
stalemate-only, insufficient-material-only and the N-move rule, which are
evaluated by the move-list interpreter in `apply.c` — a file absent from
this tree — and whose positions are therefore taken from the spec's list. -/
def filterOrder : List FilterPred :=
  [FilterPred.fenTagsConsistent, FilterPred.tagRosterMatch,
   FilterPred.setupTagPolicy, FilterPred.duplicateSetup,
   FilterPred.moveListInterpretation, FilterPred.moveCountBounds,
   FilterPred.textualVariation, FilterPred.materialMatch,
   FilterPred.checkmateOnly, FilterPred.stalemateOnly,
   FilterPred.insufficientOnly, FilterPred.repetition,
   FilterPred.nMoveRule, FilterPred.ecoTagMatch, FilterPred.hasComment]

/-- Short-circuit evaluation of a predicate chain: the result, and the
trace of predicates actually evaluated (in order, stopping at the first
failure) — the Lean rendering of the C `&&` chain. -/
def evalChain (o : FilterOutcomes) : List FilterPred → Bool × List FilterPred
  | [] => (true, [])
  | p :: rest =>
    if o p then
      ((evalChain o rest).1, p :: (evalChain o rest).2)
    else (false, [p])

/-- Acceptance by the Filter Engine as in `deal_with_game`. -/
def deal_with_game_accepts (o : FilterOutcomes) : Bool :=
  (evalChain o filterOrder).1

theorem evalChain_fst_iff (o : FilterOutcomes) (ps : List FilterPred) :
    (evalChain o ps).1 = true ↔ ∀ p ∈ ps, o p = true := by
  induction ps with
  | nil => simp [evalChain]
  | cons p rest ih =>
    by_cases hp : o p
    · simp [evalChain, hp, ih]
    · simp [evalChain, hp]

theorem evalChain_snd_eq (o : FilterOutcomes) (ps : List FilterPred) :
    (evalChain o ps).2 =
      ps.takeWhile o ++ (ps.dropWhile o).take 1 := by
  induction ps with
  | nil => simp [evalChain]
  | cons p rest ih =>
    by_cases hp : o p
    · simp [evalChain, hp, List.takeWhile_cons, List.dropWhile_cons, ih]
    · have hp2 : o p = false := Bool.of_not_eq_true hp
      simp [evalChain, hp2, List.takeWhile_cons, List.dropWhile_cons]

/-- C1: the Filter Engine accepts a game iff every enabled predicate
accepts it, and evaluation is a short-circuit AND in the spec's fixed
order — the predicates actually evaluated are exactly the longest passing
prefix of the order followed by the first failing predicate (if any).
The positions of the three interpreter-time checks (stalemate-only,
insufficient-material-only, N-move rule) inside the fifth conjunct are
modelled from the spec, `apply.c` being outside this tree. -/
theorem filter_engine_conjunction (o : FilterOutcomes) :
    (deal_with_game_accepts o = true ↔ ∀ p ∈ filterOrder, o p = true) ∧
    (evalChain o filterOrder).2 =
      filterOrder.takeWhile o ++ (filterOrder.dropWhile o).take 1 :=
  ⟨evalChain_fst_iff o filterOrder, evalChain_snd_eq o filterOrder⟩

/-! ## The material matcher (src/material.c, lines 355-640)

Pieces and colours as in `typedef.h` (the `OFF`/`EMPTY` dummies of the C
arrays are dropped: counts are indexed by real pieces only).  Counts are
C `int`s, embedded as `Int`. -/

/-- Chess piece kinds, in the order `PAWN..KING` of the C enum. -/
inductive Piece where
  | pawn | knight | bishop | rook | queen | king
deriving DecidableEq, Repr

/-- The two colours. -/
inductive Colour where
  | white | black
deriving DecidableEq, Repr

/-- `OPPOSITE_COLOUR`. -/
def OPPOSITE_COLOUR : Colour → Colour
  | Colour.white => Colour.black
  | Colour.black => Colour.white

/-- `Occurs` from `material.h`. -/
inductive Occurs where
  | exactly | numOrMore | numOrLess | sameAsOpponent | notSameAsOpponent
  | lessThanOpponent | moreThanOpponent | lessEqThanOpponent
  | moreEqThanOpponent
deriving DecidableEq, Repr

/-- `num_pieces[2][NUM_PIECE_VALUES]` restricted to the real pieces. -/
def PieceCounts : Type := Colour → Piece → Int

/-- The immutable part of a `MaterialCriteria` record (the mutable
`match_depth` counters are threaded separately; `next` becomes a list). -/
structure MaterialCriteria where
  both_colours : Bool
  num_pieces : Colour → Piece → Int
  occurs : Colour → Piece → Occurs
  num_minor_pieces : Colour → Int
  minor_occurs : Colour → Occurs
  move_depth : Nat

/-- Embedding of `piece_match`. -/
def piece_match (num_available num_to_find num_opponents : Int) :
    Occurs → Bool
  | Occurs.exactly => decide (num_available = num_to_find)
  | Occurs.numOrMore => decide (num_available ≥ num_to_find)
  | Occurs.numOrLess => decide (num_available ≤ num_to_find)
  | Occurs.sameAsOpponent => decide (num_available = num_opponents)
  | Occurs.notSameAsOpponent => decide (num_available ≠ num_opponents)
  | Occurs.lessThanOpponent =>
      decide (num_available + num_to_find ≤ num_opponents)
  | Occurs.moreThanOpponent =>
      decide (num_available - num_to_find ≥ num_opponents)
  | Occurs.lessEqThanOpponent =>
      decide (num_available + num_to_find = num_opponents)
  | Occurs.moreEqThanOpponent =>
      decide (num_available - num_to_find = num_opponents)

/-- The pieces visited by the `for (piece = PAWN; piece < KING; ...)`
loop of `piece_set_match`, in enum order. -/
def nonKingPieces : List Piece :=
  [Piece.pawn, Piece.knight, Piece.bishop, Piece.rook, Piece.queen]

/-- The per-piece loop of `piece_set_match`: carries the `match` and
`minor_failure` flags; once `match` is false the loop has exited and the
state is final. -/
def psmLoop (c : MaterialCriteria) (np : PieceCounts)
    (gameColour pieceSetColour : Colour) :
    List Piece → Bool × Bool → Bool × Bool
  | [], st => st
  | p :: rest, (m, mf) =>
    if m then
      let num_available := np gameColour p
      let num_opponents := np (OPPOSITE_COLOUR gameColour) p
      let num_to_find := c.num_pieces pieceSetColour p
      let pm := piece_match num_available num_to_find num_opponents
        (c.occurs pieceSetColour p)
      if pm then psmLoop c np gameColour pieceSetColour rest (true, mf)
      else if p = Piece.knight ∨ p = Piece.bishop then
        psmLoop c np gameColour pieceSetColour rest (true, true)
      else psmLoop c np gameColour pieceSetColour rest (false, false)
    else (m, mf)

/-- Embedding of `piece_set_match`. -/
def piece_set_match (c : MaterialCriteria) (np : PieceCounts)
    (gameColour pieceSetColour : Colour) : Bool :=
  let st := psmLoop c np gameColour pieceSetColour nonKingPieces (true, false)
  if st.1 then
    let num_to_find := c.num_minor_pieces pieceSetColour
    let oc := c.minor_occurs pieceSetColour
    if num_to_find > 0 ∨ oc ≠ Occurs.exactly then
      piece_match
        (np gameColour Piece.bishop + np gameColour Piece.knight)
        num_to_find
        (np (OPPOSITE_COLOUR gameColour) Piece.bishop +
          np (OPPOSITE_COLOUR gameColour) Piece.knight)
        oc
    else if st.2 then false
    else true
  else false

/-- Embedding of `material_match` for one criterion: `d` is the
criterion's `match_depth[game_colour]` on entry; the result pairs the
match verdict with the updated counter (the other colour's counter is
untouched by this call, exactly as in the C). -/
def material_match (c : MaterialCriteria) (gameColour : Colour)
    (np : PieceCounts) (d : Nat) : Bool × Nat :=
  let m := piece_set_match c np gameColour Colour.white &&
    piece_set_match c np (OPPOSITE_COLOUR gameColour) Colour.black
  if m then
    if d < c.move_depth then (false, d + 1) else (true, d)
  else (false, 0)

/-- A criterion together with its two mutable `match_depth` counters. -/
structure CritState where
  crit : MaterialCriteria
  wdepth : Nat
  bdepth : Nat

/-- The inner `for (details_to_find = endings_to_match; ...)` loop of
`look_for_material_match` at one board position: criteria are tried in
order until one fires; counters of criteria after the firing one are left
alone because the loop exits. -/
def tryCriteria : List CritState → PieceCounts → Bool × List CritState
  | [], _ => (false, [])
  | cs :: rest, np =>
    let w := material_match cs.crit Colour.white np cs.wdepth
    let b := if cs.crit.both_colours then
        material_match cs.crit Colour.black np cs.bdepth
      else (false, cs.bdepth)
    let cs2 : CritState := ⟨cs.crit, w.2, b.2⟩
    if w.1 || b.1 then (true, cs2 :: rest)
    else
      let r := tryCriteria rest np
      (r.1, cs2 :: r.2)

/-- The position-by-position scan of `look_for_material_match`: the match
is tried before each move is applied and once more at the final position;
the scan stops at the first position where some criterion fires. -/
def scanPositions : List PieceCounts → List CritState → Bool
  | [], _ => false
  | np :: more, crits =>
    let r := tryCriteria crits np
    if r.1 then true else scanPositions more r.2

/-- One interpreted half-move as the material matcher sees it: the piece
captured by it (if any) and the piece promoted to (if any). -/
structure Ply where
  captured : Option Piece
  promoted : Option Piece

/-- Count update for one applied move (`look_for_material_match`,
lines 606-615): a capture removes the opponent piece; a promotion adds
the promoted piece and removes the promoting pawn. -/
def applyPly (np : PieceCounts) (colour : Colour) (ply : Ply) : PieceCounts :=
  let np1 : PieceCounts :=
    match ply.captured with
    | some cp => fun col p =>
      if col = OPPOSITE_COLOUR colour ∧ p = cp then np col p - 1 else np col p
    | none => np
  match ply.promoted with
  | some pp => fun col p =>
    if col = colour ∧ p = pp then np1 col p + 1
    else if col = colour ∧ p = Piece.pawn then np1 col p - 1
    else np1 col p
  | none => np1

/-- The sequence of positions the scan visits: the initial counts and the
counts after each successive ply (side to move alternating). -/
def positionsOfGame (np : PieceCounts) (colour : Colour) :
    List Ply → List PieceCounts
  | [] => [np]
  | ply :: rest =>
    np :: positionsOfGame (applyPly np colour ply) (OPPOSITE_COLOUR colour) rest

/-- Embedding of `look_for_material_match`: all match depths are reset at
the start of each game (`reset_match_depths`), then the positions are
scanned. -/
def look_for_material_match (endings : List MaterialCriteria)
    (np : PieceCounts) (colour : Colour) (plies : List Ply) : Bool :=
  scanPositions (positionsOfGame np colour plies)
    (endings.map (fun c => ⟨c, 0, 0⟩))

/-- The pure per-position predicate tested by `material_match` with
`game_colour = WHITE`: the white pieces against the first (white) piece
set and the black pieces against the second. -/
def holdsWhite (c : MaterialCriteria) (np : PieceCounts) : Bool :=
  piece_set_match c np Colour.white Colour.white &&
    piece_set_match c np Colour.black Colour.black

/-- The swapped predicate tested with `game_colour = BLACK` when
`both_colours` is set. -/
def holdsBlack (c : MaterialCriteria) (np : PieceCounts) : Bool :=
  piece_set_match c np Colour.black Colour.white &&
    piece_set_match c np Colour.white Colour.black

/-- The `match_depth` automaton on a sequence of per-position verdicts:
fires at a position iff the constraints hold there with the counter
already at `move_depth`; the counter is incremented on a holding position
and reset to zero on a failing one. -/
def fireSeq (md : Nat) : List Bool → Nat → Bool
  | [], _ => false
  | h :: rest, d =>
    if h then
      if d < md then fireSeq md rest (d + 1) else true
    else fireSeq md rest 0

/-- `md + 1` consecutive `true` verdicts somewhere in the sequence: the
constraints held while `md` plies were played. -/
def ConsecHolds (md : Nat) (hs : List Bool) : Prop :=
  ∃ pre suf : List Bool, hs = pre ++ List.replicate (md + 1) true ++ suf

/-- Derivations of "the counter automaton fires somewhere", starting with
counter value `d`. -/
inductive Fires (md : Nat) : Nat → List Bool → Prop where
  | here : ∀ d rest, md ≤ d → Fires md d (true :: rest)
  | stepT : ∀ d rest, d < md → Fires md (d + 1) rest → Fires md d (true :: rest)
  | stepF : ∀ d rest, Fires md 0 rest → Fires md d (false :: rest)

theorem fireSeq_iff_Fires (md : Nat) (hs : List Bool) :
    ∀ d, fireSeq md hs d = true ↔ Fires md d hs := by
  induction hs with
  | nil =>
    intro d
    constructor
    · intro h; exact absurd h (by simp [fireSeq])
    · intro h; cases h
  | cons h rest ih =>
    intro d
    cases h with
    | true =>
      by_cases hd : d < md
      · rw [show fireSeq md (true :: rest) d = fireSeq md rest (d + 1) by
          simp [fireSeq, hd]]
        constructor
        · intro hf; exact Fires.stepT d rest hd ((ih (d + 1)).mp hf)
        · intro hf
          cases hf with
          | here _ _ hle => omega
          | stepT _ _ _ hf2 => exact (ih (d + 1)).mpr hf2
      · constructor
        · intro _; exact Fires.here d rest (by omega)
        · intro _; simp [fireSeq, hd]
    | false =>
      rw [show fireSeq md (false :: rest) d = fireSeq md rest 0 by
        simp [fireSeq]]
      constructor
      · intro hf; exact Fires.stepF d rest ((ih 0).mp hf)
      · intro hf
        cases hf with
        | stepF _ _ hf2 => exact (ih 0).mpr hf2

theorem Fires_mono {md : Nat} :
    ∀ {d : Nat} {hs : List Bool}, Fires md d hs →
      ∀ d', d ≤ d' → Fires md d' hs := by
  intro d hs h
  induction h with
  | here d rest hle =>
    intro d' hdd
    exact Fires.here d' rest (le_trans hle hdd)
  | stepT d rest hlt hf ih =>
    intro d' hdd
    by_cases h2 : d' < md
    · exact Fires.stepT d' rest h2 (ih (d' + 1) (by omega))
    · exact Fires.here d' rest (by omega)
  | stepF d rest hf ih =>
    intro d' hdd
    exact Fires.stepF d' rest hf

theorem Fires_replicate (md : Nat) :
    ∀ k d (suf : List Bool), 1 ≤ k → md < d + k →
      Fires md d (List.replicate k true ++ suf) := by
  intro k
  induction k with
  | zero => intro d suf h1 h2; omega
  | succ k ih =>
    intro d suf h1 h2
    have h3 : List.replicate (k + 1) true ++ suf =
        true :: (List.replicate k true ++ suf) := by
      simp [List.replicate_succ]
    rw [h3]
    by_cases hd : md ≤ d
    · exact Fires.here d _ hd
    · cases Nat.eq_zero_or_pos k with
      | inl h0 => omega
      | inr hk => exact Fires.stepT d _ (by omega) (ih (d + 1) suf hk (by omega))

theorem Fires_cons_of_fires (md : Nat) (b : Bool) (tail : List Bool)
    (h : Fires md 0 tail) : Fires md 0 (b :: tail) := by
  cases b with
  | false => exact Fires.stepF 0 tail h
  | true =>
    by_cases hmd : md = 0
    · exact Fires.here 0 tail (by omega)
    · exact Fires.stepT 0 tail (by omega) (Fires_mono h 1 (by omega))

theorem Fires_of_ConsecHolds (md : Nat) (hs : List Bool)
    (h : ConsecHolds md hs) : Fires md 0 hs := by
  obtain ⟨pre, suf, heq⟩ := h
  subst heq
  induction pre with
  | nil =>
    simpa using Fires_replicate md (md + 1) 0 suf (by omega) (by omega)
  | cons b pre2 ih => exact Fires_cons_of_fires md b _ ih

theorem ConsecHolds_of_Fires (md : Nat) :
    ∀ {d : Nat} {hs : List Bool}, Fires md d hs →
      ConsecHolds md hs ∨
        ∃ (k : Nat) (suf : List Bool),
          hs = List.replicate k true ++ suf ∧ md < d + k := by
  intro d hs h
  induction h with
  | here d rest hle =>
    exact Or.inr ⟨1, rest, by simp, by omega⟩
  | stepT d rest hlt hf ih =>
    rcases ih with ⟨pre, suf, heq⟩ | ⟨k, suf, heq, hk⟩
    · exact Or.inl ⟨true :: pre, suf, by rw [heq]; rfl⟩
    · refine Or.inr ⟨k + 1, suf, ?_, by omega⟩
      rw [heq]
      simp [List.replicate_succ]
  | stepF d rest hf ih =>
    rcases ih with ⟨pre, suf, heq⟩ | ⟨k, suf, heq, hk⟩
    · exact Or.inl ⟨false :: pre, suf, by rw [heq]; rfl⟩
    · refine Or.inl ⟨[false], List.replicate (k - (md + 1)) true ++ suf, ?_⟩
      have hsplit : List.replicate k true =
          List.replicate (md + 1) true ++ List.replicate (k - (md + 1)) true := by
        rw [← List.replicate_add]
        congr 1
        omega
      rw [heq, hsplit]
      simp
      rw [List.replicate_add, List.append_assoc]

theorem fireSeq_zero_iff_consec (md : Nat) (hs : List Bool) :
    fireSeq md hs 0 = true ↔ ConsecHolds md hs := by
  rw [fireSeq_iff_Fires]
  constructor
  · intro h
    rcases ConsecHolds_of_Fires md h with hc | ⟨k, suf, heq, hk⟩
    · exact hc
    · refine ⟨[], List.replicate (k - (md + 1)) true ++ suf, ?_⟩
      have hsplit : List.replicate k true =
          List.replicate (md + 1) true ++ List.replicate (k - (md + 1)) true := by
        rw [← List.replicate_add]
        congr 1
        omega
      rw [heq, hsplit]
      simp
      rw [List.replicate_add, List.append_assoc]
  · exact Fires_of_ConsecHolds md hs

theorem material_match_white (c : MaterialCriteria) (np : PieceCounts)
    (d : Nat) :
    material_match c Colour.white np d =
      ((holdsWhite c np && !decide (d < c.move_depth)),
        if holdsWhite c np then
          (if d < c.move_depth then d + 1 else d)
        else 0) := by
  unfold material_match holdsWhite
  by_cases hm : (piece_set_match c np Colour.white Colour.white &&
      piece_set_match c np (OPPOSITE_COLOUR Colour.white) Colour.black) = true
  · rw [if_pos hm]
    have hm2 : (piece_set_match c np Colour.white Colour.white &&
        piece_set_match c np Colour.black Colour.black) = true := hm
    by_cases hd : d < c.move_depth
    · rw [if_pos hd]; simp [hm2, hd]
    · rw [if_neg hd]; simp [hm2, hd]
  · rw [if_neg hm]
    have hm2 : (piece_set_match c np Colour.white Colour.white &&
        piece_set_match c np Colour.black Colour.black) = false :=
      Bool.of_not_eq_true hm
    simp [hm2]

theorem material_match_black (c : MaterialCriteria) (np : PieceCounts)
    (d : Nat) :
    material_match c Colour.black np d =
      ((holdsBlack c np && !decide (d < c.move_depth)),
        if holdsBlack c np then
          (if d < c.move_depth then d + 1 else d)
        else 0) := by
  unfold material_match holdsBlack
  by_cases hm : (piece_set_match c np Colour.black Colour.white &&
      piece_set_match c np (OPPOSITE_COLOUR Colour.black) Colour.black) = true
  · rw [if_pos hm]
    have hm2 : (piece_set_match c np Colour.black Colour.white &&
        piece_set_match c np Colour.white Colour.black) = true := hm
    by_cases hd : d < c.move_depth
    · rw [if_pos hd]; simp [hm2, hd]
    · rw [if_neg hd]; simp [hm2, hd]
  · rw [if_neg hm]
    have hm2 : (piece_set_match c np Colour.black Colour.white &&
        piece_set_match c np Colour.white Colour.black) = false :=
      Bool.of_not_eq_true hm
    simp [hm2]

theorem scanPositions_singleton (c : MaterialCriteria) :
    ∀ (ps : List PieceCounts) (w b : Nat),
      scanPositions ps [⟨c, w, b⟩] =
        (fireSeq c.move_depth (ps.map (holdsWhite c)) w ||
          (c.both_colours && fireSeq c.move_depth (ps.map (holdsBlack c)) b)) := by
  intro ps
  induction ps with
  | nil => intro w b; simp [scanPositions, fireSeq]
  | cons np more ih =>
    intro w b
    simp only [scanPositions, tryCriteria, material_match_white,
      material_match_black, List.map_cons]
    by_cases hW : holdsWhite c np = true
    · by_cases hw : w < c.move_depth
      · by_cases hbc : c.both_colours = true
        · by_cases hB : holdsBlack c np = true
          · by_cases hb : b < c.move_depth
            · simp [hW, hw, hbc, hB, hb, ih, fireSeq]
            · simp [hW, hw, hbc, hB, hb, fireSeq]
          · simp [hW, hw, hbc, hB, ih, fireSeq]
        · have hbc2 : c.both_colours = false := Bool.of_not_eq_true hbc
          simp [hW, hw, hbc2, ih, fireSeq]
      · simp [hW, hw, fireSeq]
    · have hW2 : holdsWhite c np = false := Bool.of_not_eq_true hW
      by_cases hbc : c.both_colours = true
      · by_cases hB : holdsBlack c np = true
        · by_cases hb : b < c.move_depth
          · simp [hW2, hbc, hB, hb, ih, fireSeq]
          · simp [hW2, hbc, hB, hb, fireSeq]
        · have hB2 : holdsBlack c np = false := Bool.of_not_eq_true hB
          simp [hW2, hbc, hB2, ih, fireSeq]
      · have hbc2 : c.both_colours = false := Bool.of_not_eq_true hbc
        simp [hW2, hbc2, ih, fireSeq]

/-- C3: with a single material criterion of stability depth `move_depth`,
`look_for_material_match` reports a match exactly when the piece-count
constraints hold at `move_depth + 1` consecutive checked positions for
one colour — that is, when they held while `move_depth` consecutive plies
were played (the per-colour `match_depth` counter is incremented on each
holding position and reset to zero on any failing one, and the criterion
fires at a position whose counter has already reached `move_depth`).
Positions are checked before each move and once at the end of the game;
with `move_depth = 2` this needs the constraints to survive two plies
(three checked positions), while a balance reached for a single ply does
not match. -/
theorem material_match_stability (c : MaterialCriteria) (np : PieceCounts)
    (colour : Colour) (plies : List Ply) :
    look_for_material_match [c] np colour plies = true ↔
      ConsecHolds c.move_depth
          ((positionsOfGame np colour plies).map (holdsWhite c)) ∨
      (c.both_colours = true ∧
        ConsecHolds c.move_depth
          ((positionsOfGame np colour plies).map (holdsBlack c))) := by
  unfold look_for_material_match
  rw [show ([c].map (fun c => (⟨c, 0, 0⟩ : CritState))) = [⟨c, 0, 0⟩] from rfl]
  rw [scanPositions_singleton]
  rw [Bool.or_eq_true, Bool.and_eq_true]
  rw [fireSeq_zero_iff_consec, fireSeq_zero_iff_consec]

/-! ## Chess960 detection (pgne/src/grammar.c, lines 454-496 and 950-1017)

The board model keeps the fields `chess960_setup` reads: the move number,
the cached king squares, the four castling-rights fields (which store a
file letter, `'\0'` — here `none` — meaning the right is gone) and the
squares, indexed by rank and file characters.  A square holds `none` for
`EMPTY` or a coloured piece; `EXTRACT_PIECE` is `Option.map Prod.snd`. -/

/-- The board fields read by `chess960_setup`. -/
structure Board where
  move_number : Nat
  WKingCol : Char
  WKingRank : Char
  BKingCol : Char
  BKingRank : Char
  WKingCastle : Option Char
  WQueenCastle : Option Char
  BKingCastle : Option Char
  BQueenCastle : Option Char
  squares : Char → Char → Option (Colour × Piece)

/-- The files `'a'..'h'`, the range of the column loop. -/
def cols : List Char := ['a', 'b', 'c', 'd', 'e', 'f', 'g', 'h']

/-- The standard white back rank (`RNBQKBNR` on rank 1). -/
def standardWhiteBackRank (b : Board) : Prop :=
  b.squares '1' 'a' = some (Colour.white, Piece.rook) ∧
  b.squares '1' 'b' = some (Colour.white, Piece.knight) ∧
  b.squares '1' 'c' = some (Colour.white, Piece.bishop) ∧
  b.squares '1' 'd' = some (Colour.white, Piece.queen) ∧
  b.squares '1' 'e' = some (Colour.white, Piece.king) ∧
  b.squares '1' 'f' = some (Colour.white, Piece.bishop) ∧
  b.squares '1' 'g' = some (Colour.white, Piece.knight) ∧
  b.squares '1' 'h' = some (Colour.white, Piece.rook)

instance (b : Board) : Decidable (standardWhiteBackRank b) := by
  unfold standardWhiteBackRank
  infer_instance

/-- Embedding of `chess960_setup`. -/
def chess960_setup (b : Board) : Bool :=
  if b.move_number = 1 ∧ b.WKingRank = '1' ∧ b.BKingRank = '8' ∧
      b.WKingCol = b.BKingCol ∧ b.WKingCastle ≠ none ∧
      b.WQueenCastle ≠ none ∧ b.BKingCastle ≠ none ∧
      b.BQueenCastle ≠ none then
    let probable := cols.all fun c =>
      decide (b.squares '2' c = some (Colour.white, Piece.pawn)) &&
      decide (b.squares '7' c = some (Colour.black, Piece.pawn)) &&
      decide (b.squares '1' c ≠ none) &&
      decide ((b.squares '1' c).map Prod.snd = (b.squares '8' c).map Prod.snd)
    if probable then decide (¬standardWhiteBackRank b) else false
  else false

/-- The slice of the game tags `consistent_FEN_tags` reads and writes. -/
structure FenTags where
  setup : Option String
  fen : Option String
  variant : Option String
deriving DecidableEq, Repr

/-- Embedding of `consistent_FEN_tags` (its tag-updating behaviour): the
board parsed from the FEN tag by `new_fen_board` is passed in as
`parsedBoard` (`none` for a malformed FEN).  Modelled from the spec:
`new_fen_board` and `add_fen_castling` live in `apply.c`, outside this
tree; per the spec `add_fen_castling` only liberally adds castling rights
to the FEN tag, so it leaves the `Variant` and `SetUp` tags alone and is
the identity on the fields modelled here. -/
def consistent_FEN_tags (tags : FenTags) (parsedBoard : Option Board) :
    Bool × FenTags :=
  let consistent1 := ¬(tags.setup = some "1" ∧ tags.fen = none)
  match tags.fen with
  | none => (decide consistent1, tags)
  | some _ =>
    match parsedBoard with
    | none => (false, tags)
    | some board =>
      let tags1 :=
        if tags.setup = none then { tags with setup := some "1" } else tags
      if tags.variant = none ∧ chess960_setup board then
        (decide consistent1, { tags1 with variant := some "chess 960" })
      else (decide consistent1, tags1)

/-- C6: for a game carrying a FEN tag and no Variant tag, a
`Variant "chess 960"` tag is synthesised exactly when the FEN parses and
the starting board satisfies `chess960_setup`; and `chess960_setup` holds
exactly when the move number is 1, both kings sit on their own back rank
on the same file, all four castling rights are intact, both home ranks
are full of pawns, the back rank is full with identical piece types
facing each other on each file, and at least one back-rank piece is out
of its standard position. -/
theorem chess960_variant_synthesis (tags : FenTags)
    (parsedBoard : Option Board) (hvar : tags.variant = none) :
    ((consistent_FEN_tags tags parsedBoard).2.variant = some "chess 960" ↔
      tags.fen ≠ none ∧
        ∃ b : Board, parsedBoard = some b ∧ chess960_setup b = true) ∧
    (∀ b : Board, chess960_setup b = true ↔
      (b.move_number = 1 ∧ b.WKingRank = '1' ∧ b.BKingRank = '8' ∧
        b.WKingCol = b.BKingCol ∧ b.WKingCastle ≠ none ∧
        b.WQueenCastle ≠ none ∧ b.BKingCastle ≠ none ∧
        b.BQueenCastle ≠ none) ∧
      (∀ c ∈ cols, b.squares '2' c = some (Colour.white, Piece.pawn) ∧
        b.squares '7' c = some (Colour.black, Piece.pawn)) ∧
      (∀ c ∈ cols, b.squares '1' c ≠ none ∧
        (b.squares '1' c).map Prod.snd = (b.squares '8' c).map Prod.snd) ∧
      ¬standardWhiteBackRank b) := by
  constructor
  · unfold consistent_FEN_tags
    cases hf : tags.fen with
    | none =>
      simp only []
      constructor
      · intro hcon
        rw [hvar] at hcon
        exact absurd hcon (by simp)
      · intro ⟨hne, _⟩
        exact absurd rfl hne
    | some f =>
      cases hb : parsedBoard with
      | none =>
        simp only []
        constructor
        · intro hcon
          rw [hvar] at hcon
          exact absurd hcon (by simp)
        · intro ⟨_, b, hbe, _⟩
          exact absurd hbe (by simp)
      | some board =>
        simp only []
        by_cases hc : tags.variant = none ∧ chess960_setup board
        · rw [if_pos hc]
          simp only []
          constructor
          · intro _
            exact ⟨by simp [hf], board, rfl, hc.2⟩
          · intro _
            trivial
        · rw [if_neg hc]
          have hc2 : ¬chess960_setup board = true := fun h960 =>
            hc ⟨hvar, h960⟩
          constructor
          · intro hcon
            by_cases hs : tags.setup = none
            · rw [if_pos hs] at hcon
              simp only [] at hcon
              rw [hvar] at hcon
              exact absurd hcon (by simp)
            · rw [if_neg hs] at hcon
              simp only [] at hcon
              rw [hvar] at hcon
              exact absurd hcon (by simp)
          · intro ⟨_, b, hbe, h960⟩
            have : b = board := by
              have := hbe
              simp at this
              exact this.symm ▸ rfl
            rw [this] at h960
            exact absurd h960 hc2
  · intro b
    unfold chess960_setup
    by_cases hpre : b.move_number = 1 ∧ b.WKingRank = '1' ∧
        b.BKingRank = '8' ∧ b.WKingCol = b.BKingCol ∧
        b.WKingCastle ≠ none ∧ b.WQueenCastle ≠ none ∧
        b.BKingCastle ≠ none ∧ b.BQueenCastle ≠ none
    · rw [if_pos hpre]
      simp only [List.all_eq_true, Bool.and_eq_true, decide_eq_true_eq]
      constructor
      · intro h
        by_cases hall : ∀ c ∈ cols,
            (b.squares '2' c = some (Colour.white, Piece.pawn) ∧
              b.squares '7' c = some (Colour.black, Piece.pawn)) ∧
            b.squares '1' c ≠ none ∧
            (b.squares '1' c).map Prod.snd = (b.squares '8' c).map Prod.snd
        · rw [if_pos (by
            intro c hc
            obtain ⟨⟨h1, h2⟩, h3, h4⟩ := hall c hc
            exact ⟨⟨⟨h1, h2⟩, h3⟩, h4⟩)] at h
          simp only [decide_eq_true_eq] at h
          refine ⟨⟨hpre.1, hpre.2.1, hpre.2.2.1, hpre.2.2.2.1,
            hpre.2.2.2.2.1, hpre.2.2.2.2.2.1, hpre.2.2.2.2.2.2.1,
            hpre.2.2.2.2.2.2.2⟩, ?_, ?_, h⟩
          · intro c hc; exact (hall c hc).1
          · intro c hc; exact (hall c hc).2
        · rw [if_neg (by
            intro hcon
            apply hall
            intro c hc
            obtain ⟨⟨⟨h1, h2⟩, h3⟩, h4⟩ := hcon c hc
            exact ⟨⟨h1, h2⟩, h3, h4⟩)] at h
          exact absurd h (by simp)
      · intro ⟨_, hpawns, hmirror, hstd⟩
        rw [if_pos (by
          intro c hc
          obtain ⟨h1, h2⟩ := hpawns c hc
          obtain ⟨h3, h4⟩ := hmirror c hc
          exact ⟨⟨⟨h1, h2⟩, h3⟩, h4⟩)]
        simpa using hstd
    · rw [if_neg hpre]
      simp only [Bool.false_eq_true, false_iff]
      intro ⟨hpre2, _⟩
      exact hpre hpre2

/-- A concrete Chess960 starting array (back rank `NRKBBQNR`). -/
def exBackPiece (c : Char) : Piece :=
  if c = 'a' then Piece.knight
  else if c = 'b' then Piece.rook
  else if c = 'c' then Piece.king
  else if c = 'd' then Piece.bishop
  else if c = 'e' then Piece.bishop
  else if c = 'f' then Piece.queen
  else if c = 'g' then Piece.knight
  else Piece.rook

/-- A concrete board holding that Chess960 start. -/
def exBoard960 : Board where
  move_number := 1
  WKingCol := 'c'
  WKingRank := '1'
  BKingCol := 'c'
  BKingRank := '8'
  WKingCastle := some 'h'
  WQueenCastle := some 'b'
  BKingCastle := some 'h'
  BQueenCastle := some 'b'
  squares := fun r c =>
    if r = '2' then some (Colour.white, Piece.pawn)
    else if r = '7' then some (Colour.black, Piece.pawn)
    else if r = '1' then some (Colour.white, exBackPiece c)
    else if r = '8' then some (Colour.black, exBackPiece c)
    else none

/-- Witness for `chess960_variant_synthesis`: on a game with a FEN tag,
no Variant tag and the `NRKBBQNR` start, the Variant tag is synthesised. -/
theorem chess960_variant_synthesis_witness :
    (consistent_FEN_tags ⟨none, some "fen", none⟩
        (some exBoard960)).2.variant = some "chess 960" :=
  ((chess960_variant_synthesis ⟨none, some "fen", none⟩
      (some exBoard960) rfl).1).mpr
    ⟨by simp, exBoard960, rfl, by decide⟩

/-! ## Textual variation matching (src/moves.c, lines 360-742)

A stored variation is a `variation_list` node: an array of `variant_move`
records (pattern text plus the mutable `matched` flag, which lives in
shared heap memory across games) and four counters.  `permutation_match`
receives the *record* by value — the counters are modified only in the
copy — but the `moves` array is shared, so its `matched` flags persist;
the function clears every flag on entry. -/

/-- `move_char`. -/
def move_char (c : Char) : Bool := c.isAlpha || c.isDigit || decide (c = '-')

/-- Whether `needle` occurs in `hay` starting at position `p`. -/
def matchesAt (hay needle : List Char) (p : Nat) : Bool :=
  needle.isPrefixOf (hay.drop p)

/-- `strstr` from a given start position: the first occurrence index. -/
def strstrFrom (hay needle : List Char) (pos : Nat) : Option Nat :=
  (List.range (hay.length + 1)).find? fun p =>
    decide (pos ≤ p) && matchesAt hay needle p

/-- Skip forward over `move_char` characters (the re-try advance of the
`textual_variation_match` loop), with explicit fuel. -/
def skipMC (hay : List Char) : Nat → Nat → Nat
  | 0, p => p
  | fuel + 1, p =>
    match (hay.drop p).head? with
    | some c => if move_char c then skipMC hay fuel (p + 1) else p
    | none => p

/-- The retry loop of `textual_variation_match`: find the next occurrence,
accept it when it is bounded by non-move characters (the character after
the last one may be the terminating `NUL`, which is not a move
character), otherwise advance past the move characters and retry.  Fuel
bounds the iteration; the C loops forever in the degenerate case where no
advance happens, which cannot arise for game move texts (they begin with
a move character). -/
def tvmLoop (vm am : List Char) : Nat → Nat → Bool
  | 0, _ => false
  | fuel + 1, pos =>
    match strstrFrom vm am pos with
    | none => false
    | some p =>
      let beforeOK := p = 0 ∨ move_char (vm.getD (p - 1) (Char.ofNat 0)) = false
      let afterOK := move_char (vm.getD (p + am.length) (Char.ofNat 0)) = false
      if beforeOK ∧ afterOK then true
      else tvmLoop vm am fuel (skipMC vm vm.length p)

/-- Embedding of `textual_variation_match`. -/
def textual_variation_match (variationMove actualMove : List Char) : Bool :=
  tvmLoop variationMove actualMove (variationMove.length + 1) 0

/-- A `variant_move`: the pattern text and the shared `matched` flag. -/
structure VariantMove where
  move : List Char
  matched : Bool
deriving DecidableEq, Repr

/-- A `variation_list` node: patterns (with their heap `matched` flags)
and the pre-computed counters. -/
structure VariationEntry where
  moves : List VariantMove
  num_white_any_moves : Nat
  num_black_any_moves : Nat
  num_white_disallowed_moves : Nat
  num_black_disallowed_moves : Nat
deriving DecidableEq, Repr

/-- `Z0`-style default variant move, used for out-of-range `getD`. -/
def dummyVM : VariantMove := ⟨[], false⟩

/-- Is the move of the variation at index `i` (from parity `start`, the
`variant_index += 2` walk) a disallowed pattern matching the game move?
Used by stage one of `permutation_match`. -/
def anyDisallowedAt (mv : List VariantMove) (g : List Char) (start : Nat) :
    Bool :=
  (List.range mv.length).any fun i =>
    decide (i % 2 = start) &&
    decide ((mv.getD i dummyVM).move.head? = some (Char.ofNat 33)) &&
    textual_variation_match (mv.getD i dummyVM).move g

/-- Stage one of `permutation_match`: scan up to `variation.length` game
moves for any disallowed pattern of the matching colour. -/
def dfLoop (mv : List VariantMove) : List (List Char) → Nat → Bool → Bool
  | [], _, _ => false
  | g :: rest, tested, white =>
    if mv.length ≤ tested then false
    else if anyDisallowedAt mv g (if white then 0 else 1) then true
    else dfLoop mv rest (tested + 1) (!white)

/-- After stage one succeeds, every disallowed pattern is marked matched
(in effect becoming an any-move). -/
def markDisallowedMatched (mv : List VariantMove) : List VariantMove :=
  mv.map fun m =>
    if m.move.head? = some (Char.ofNat 33) then { m with matched := true }
    else m

/-- Count of disallowed patterns at indices of the given parity. -/
def countDisallowedPar (mv : List VariantMove) (par : Nat) : Nat :=
  ((List.range mv.length).filter fun i =>
    decide (i % 2 = par) &&
    decide ((mv.getD i dummyVM).move.head? = some (Char.ofNat 33))).length

/-- Set the `matched` flag at index `i`. -/
def setMatched : List VariantMove → Nat → List VariantMove
  | [], _ => []
  | m :: rest, 0 => { m with matched := true } :: rest
  | m :: rest, i + 1 => m :: setMatched rest i

/-- Stage two inner loop: the first unmatched pattern of the right parity
that matches the game move. -/
def findUnmatched (mv : List VariantMove) (g : List Char) (start : Nat) :
    Option Nat :=
  (List.range mv.length).find? fun i =>
    decide (i % 2 = start) && !(mv.getD i dummyVM).matched &&
    textual_variation_match (mv.getD i dummyVM).move g

/-- Stage two of `permutation_match`: walk the game, matching each move
against an unmatched pattern of its colour or consuming an any-move;
returns the verdict and the final state of the shared `matched` flags. -/
def stage2 (len : Nat) : List (List Char) → List VariantMove → Nat → Nat →
    Nat → Bool → Bool × List VariantMove
  | [], mv, _, _, matchedMoves, _ => (decide (matchedMoves = len), mv)
  | g :: rest, mv, wAny, bAny, matchedMoves, white =>
    if len ≤ matchedMoves then (decide (matchedMoves = len), mv)
    else
      match findUnmatched mv g (if white then 0 else 1) with
      | some i =>
        stage2 len rest (setMatched mv i) wAny bAny (matchedMoves + 1) (!white)
      | none =>
        if white ∧ 0 < wAny then
          stage2 len rest mv (wAny - 1) bAny (matchedMoves + 1) (!white)
        else if ¬white ∧ 0 < bAny then
          stage2 len rest mv wAny (bAny - 1) (matchedMoves + 1) (!white)
        else (false, mv)

/-- Embedding of `permutation_match`: the record is received by value
(counters are locals), every `matched` flag is cleared first, stage one
rules out disallowed moves, stage two permutes; the returned flag array
is the state the shared heap is left in. -/
def permutation_match (game : List (List Char)) (v : VariationEntry) :
    Bool × List VariantMove :=
  let mv0 := v.moves.map fun m => { m with matched := false }
  let len := mv0.length
  if 0 < v.num_white_disallowed_moves ∨ 0 < v.num_black_disallowed_moves then
    if dfLoop mv0 game 0 true then (false, mv0)
    else
      stage2 len game (markDisallowedMatched mv0)
        (v.num_white_any_moves + countDisallowedPar mv0 0)
        (v.num_black_any_moves + countDisallowedPar mv0 1) 0 true
  else stage2 len game mv0 v.num_white_any_moves v.num_black_any_moves 0 true

/-- Embedding of `straight_match` (positional matching; it reads the
pattern texts only and never touches the `matched` flags). -/
def smLoop (mv : List VariantMove) : List (List Char) → Nat → Bool
  | [], idx => decide (mv.length ≤ idx)
  | g :: rest, idx =>
    if mv.length ≤ idx then true
    else if (mv.getD idx dummyVM).move.head? = some (Char.ofNat 42) then
      smLoop mv rest (idx + 1)
    else if textual_variation_match (mv.getD idx dummyVM).move g then
      if (mv.getD idx dummyVM).move.head? = some (Char.ofNat 33) then false
      else smLoop mv rest (idx + 1)
    else if (mv.getD idx dummyVM).move.head? = some (Char.ofNat 33) then
      smLoop mv rest (idx + 1)
    else false

/-- Embedding of `straight_match`. -/
def straight_match (game : List (List Char)) (v : VariationEntry) : Bool :=
  smLoop v.moves game 0

/-- The verdict and resulting flag state of matching one variation:
`permutation_match` when permutations are enabled, `straight_match`
(which leaves the flags alone) otherwise. -/
def ctvResult (perm : Bool) (game : List (List Char)) (v : VariationEntry) :
    Bool × List VariantMove :=
  if perm then permutation_match game v else (straight_match game v, v.moves)

/-- Embedding of the loop of `check_textual_variations` over the stored
variation list: tries each variation in order until one matches,
threading the shared `matched` flag state; returns the verdict and the
variation list as left in memory. -/
def ctvLoop (perm : Bool) (game : List (List Char)) :
    List VariationEntry → Bool × List VariationEntry
  | [] => (false, [])
  | v :: rest =>
    if (ctvResult perm game v).1 then
      (true, { v with moves := (ctvResult perm game v).2 } :: rest)
    else
      ((ctvLoop perm game rest).1,
        { v with moves := (ctvResult perm game v).2 } ::
          (ctvLoop perm game rest).2)

/-- Embedding of `check_textual_variations`: with no stored variations
every game is wanted. -/
def check_textual_variations (perm : Bool) (vlist : List VariationEntry)
    (game : List (List Char)) : Bool × List VariationEntry :=
  match vlist with
  | [] => (true, [])
  | _ => ctvLoop perm game vlist

/-- Forget the transient `matched` flag of a pattern. -/
def eraseVM (m : VariantMove) : VariantMove := { m with matched := false }

/-- Forget all transient `matched` flags of a stored variation. -/
def eraseEntry (v : VariationEntry) : VariationEntry :=
  { v with moves := v.moves.map eraseVM }

/-- The state of the stored variation list after any number of games,
up to the transient flags. -/
def processGames (perm : Bool) (vlist : List VariationEntry)
    (gs : List (List (List Char))) : List VariationEntry :=
  gs.foldl (fun st g => (check_textual_variations perm st g).2) vlist

theorem map_eraseVM_setMatched (mv : List VariantMove) :
    ∀ i, (setMatched mv i).map eraseVM = mv.map eraseVM := by
  induction mv with
  | nil => intro i; rfl
  | cons m rest ih =>
    intro i
    cases i with
    | zero => simp [setMatched, eraseVM]
    | succ j => simp [setMatched, eraseVM, ih j]

theorem map_eraseVM_markDisallowed (mv : List VariantMove) :
    (markDisallowedMatched mv).map eraseVM = mv.map eraseVM := by
  unfold markDisallowedMatched
  rw [List.map_map]
  congr 1
  funext m
  by_cases h : m.move.head? = some (Char.ofNat 33) <;>
    simp [Function.comp, h, eraseVM]

theorem map_eraseVM_stage2 (len : Nat) :
    ∀ (game : List (List Char)) (mv : List VariantMove) (wAny bAny k : Nat)
      (white : Bool),
      ((stage2 len game mv wAny bAny k white).2).map eraseVM =
        mv.map eraseVM := by
  intro game
  induction game with
  | nil => intro mv wAny bAny k white; rfl
  | cons g rest ih =>
    intro mv wAny bAny k white
    unfold stage2
    by_cases hk : len ≤ k
    · rw [if_pos hk]
    · rw [if_neg hk]
      cases hf : findUnmatched mv g (if white then 0 else 1) with
      | some i =>
        simp only []
        rw [ih (setMatched mv i) wAny bAny (k + 1) (!white),
          map_eraseVM_setMatched]
      | none =>
        simp only []
        by_cases hw : white ∧ 0 < wAny
        · rw [if_pos hw, ih]
        · rw [if_neg hw]
          by_cases hb : ¬white ∧ 0 < bAny
          · rw [if_pos hb, ih]
          · rw [if_neg hb]

theorem map_eraseVM_permutation_match (g : List (List Char))
    (v : VariationEntry) :
    ((permutation_match g v).2).map eraseVM = v.moves.map eraseVM := by
  unfold permutation_match
  simp only []
  have hbase : (v.moves.map fun m => { m with matched := false }).map eraseVM
      = v.moves.map eraseVM := by
    rw [List.map_map]
    congr 1
  by_cases hd : 0 < v.num_white_disallowed_moves ∨
      0 < v.num_black_disallowed_moves
  · rw [if_pos hd]
    by_cases hdf : dfLoop (v.moves.map fun m => { m with matched := false })
        g 0 true
    · rw [if_pos hdf]
      exact hbase
    · rw [if_neg hdf]
      rw [map_eraseVM_stage2, map_eraseVM_markDisallowed]
      exact hbase
  · rw [if_neg hd]
    rw [map_eraseVM_stage2]
    exact hbase

theorem permutation_match_congr (g : List (List Char))
    (v1 v2 : VariationEntry) (h : eraseEntry v1 = eraseEntry v2) :
    permutation_match g v1 = permutation_match g v2 := by
  have hm0 := congrArg VariationEntry.moves h
  have hm : v1.moves.map (fun m => { m with matched := false }) =
      v2.moves.map (fun m => { m with matched := false }) := hm0
  have h10 := congrArg (fun v : VariationEntry => v.num_white_any_moves) h
  have h1 : v1.num_white_any_moves = v2.num_white_any_moves := h10
  have h20 := congrArg (fun v : VariationEntry => v.num_black_any_moves) h
  have h2 : v1.num_black_any_moves = v2.num_black_any_moves := h20
  have h30 :=
    congrArg (fun v : VariationEntry => v.num_white_disallowed_moves) h
  have h3 : v1.num_white_disallowed_moves = v2.num_white_disallowed_moves :=
    h30
  have h40 :=
    congrArg (fun v : VariationEntry => v.num_black_disallowed_moves) h
  have h4 : v1.num_black_disallowed_moves = v2.num_black_disallowed_moves :=
    h40
  unfold permutation_match
  rw [hm, h1, h2, h3, h4]

theorem getD_move_congr (l1 l2 : List VariantMove)
    (h : l1.map eraseVM = l2.map eraseVM) (i : Nat) :
    (l1.getD i dummyVM).move = (l2.getD i dummyVM).move := by
  have hq : (l1[i]?).map eraseVM = (l2[i]?).map eraseVM := by
    rw [← List.getElem?_map, ← List.getElem?_map, h]
  rw [List.getD_eq_getElem?_getD, List.getD_eq_getElem?_getD]
  cases ho1 : l1[i]? with
  | none =>
    cases ho2 : l2[i]? with
    | none => rfl
    | some b => rw [ho1, ho2] at hq; exact absurd hq (by simp)
  | some a =>
    cases ho2 : l2[i]? with
    | none => rw [ho1, ho2] at hq; exact absurd hq (by simp)
    | some b =>
      rw [ho1, ho2] at hq
      have hq2 : eraseVM a = eraseVM b := by simpa using hq
      have hab := congrArg VariantMove.move hq2
      exact hab

theorem smLoop_congr (l1 l2 : List VariantMove)
    (h : l1.map eraseVM = l2.map eraseVM) :
    ∀ (game : List (List Char)) (idx : Nat),
      smLoop l1 game idx = smLoop l2 game idx := by
  have hlen : l1.length = l2.length := by
    have h2 := congrArg List.length h
    simpa using h2
  intro game
  induction game with
  | nil => intro idx; simp [smLoop, hlen]
  | cons g rest ih =>
    intro idx
    unfold smLoop
    rw [hlen, getD_move_congr l1 l2 h idx]
    by_cases hc : l2.length ≤ idx
    · rw [if_pos hc, if_pos hc]
    · rw [if_neg hc, if_neg hc]
      by_cases h42 : (l2.getD idx dummyVM).move.head? = some (Char.ofNat 42)
      · rw [if_pos h42, if_pos h42, ih]
      · rw [if_neg h42, if_neg h42]
        by_cases htv : textual_variation_match (l2.getD idx dummyVM).move g
        · rw [if_pos htv, if_pos htv]
          by_cases h33 :
              (l2.getD idx dummyVM).move.head? = some (Char.ofNat 33)
          · rw [if_pos h33, if_pos h33]
          · rw [if_neg h33, if_neg h33, ih]
        · rw [if_neg htv, if_neg htv]
          by_cases h33 :
              (l2.getD idx dummyVM).move.head? = some (Char.ofNat 33)
          · rw [if_pos h33, if_pos h33, ih]
          · rw [if_neg h33, if_neg h33]

theorem straight_match_congr (g : List (List Char)) (v1 v2 : VariationEntry)
    (h : eraseEntry v1 = eraseEntry v2) :
    straight_match g v1 = straight_match g v2 := by
  unfold straight_match
  exact smLoop_congr v1.moves v2.moves (congrArg VariationEntry.moves h) g 0

theorem eraseEntry_setMoves (v : VariationEntry) (mv : List VariantMove)
    (h : mv.map eraseVM = v.moves.map eraseVM) :
    eraseEntry { v with moves := mv } = eraseEntry v := by
  cases v with
  | mk a c1 c2 c3 c4 => simp_all [eraseEntry]

theorem map_eraseVM_ctvResult (perm : Bool) (g : List (List Char))
    (v : VariationEntry) :
    ((ctvResult perm g v).2).map eraseVM = v.moves.map eraseVM := by
  unfold ctvResult
  by_cases hp : perm = true
  · rw [if_pos hp]
    exact map_eraseVM_permutation_match g v
  · rw [if_neg hp]

theorem ctvResult_fst_congr (perm : Bool) (g : List (List Char))
    (v1 v2 : VariationEntry) (h : eraseEntry v1 = eraseEntry v2) :
    (ctvResult perm g v1).1 = (ctvResult perm g v2).1 := by
  unfold ctvResult
  by_cases hp : perm = true
  · rw [if_pos hp, if_pos hp, permutation_match_congr g v1 v2 h]
  · rw [if_neg hp, if_neg hp]
    simp only []
    exact straight_match_congr g v1 v2 h

theorem ctvLoop_state (perm : Bool) (g : List (List Char)) :
    ∀ s : List VariationEntry,
      ((ctvLoop perm g s).2).map eraseEntry = s.map eraseEntry := by
  intro s
  induction s with
  | nil => rfl
  | cons v rest ih =>
    unfold ctvLoop
    by_cases hr : (ctvResult perm g v).1 = true
    · rw [if_pos hr]
      simp only [List.map_cons]
      rw [eraseEntry_setMoves v _ (map_eraseVM_ctvResult perm g v)]
    · rw [if_neg hr]
      simp only [List.map_cons]
      rw [eraseEntry_setMoves v _ (map_eraseVM_ctvResult perm g v), ih]

theorem ctvLoop_congr (perm : Bool) (g : List (List Char)) :
    ∀ s1 s2 : List VariationEntry,
      s1.map eraseEntry = s2.map eraseEntry →
      (ctvLoop perm g s1).1 = (ctvLoop perm g s2).1 := by
  intro s1
  induction s1 with
  | nil =>
    intro s2 h
    cases s2 with
    | nil => rfl
    | cons v2 r2 => exact absurd h (by simp)
  | cons v1 r1 ih =>
    intro s2 h
    cases s2 with
    | nil => exact absurd h (by simp)
    | cons v2 r2 =>
      simp only [List.map_cons, List.cons.injEq] at h
      obtain ⟨hv, hr⟩ := h
      unfold ctvLoop
      rw [ctvResult_fst_congr perm g v1 v2 hv]
      by_cases hm : (ctvResult perm g v2).1 = true
      · rw [if_pos hm, if_pos hm]
      · rw [if_neg hm, if_neg hm]
        simp only []
        exact ih r2 hr

theorem check_textual_variations_state (perm : Bool)
    (s : List VariationEntry) (g : List (List Char)) :
    ((check_textual_variations perm s g).2).map eraseEntry =
      s.map eraseEntry := by
  cases s with
  | nil => rfl
  | cons v rest => exact ctvLoop_state perm g (v :: rest)

theorem check_textual_variations_congr (perm : Bool)
    (s1 s2 : List VariationEntry) (g : List (List Char))
    (h : s1.map eraseEntry = s2.map eraseEntry) :
    (check_textual_variations perm s1 g).1 =
      (check_textual_variations perm s2 g).1 := by
  cases s1 with
  | nil =>
    cases s2 with
    | nil => rfl
    | cons v2 r2 => exact absurd h (by simp)
  | cons v1 r1 =>
    cases s2 with
    | nil => exact absurd h (by simp)
    | cons v2 r2 => exact ctvLoop_congr perm g (v1 :: r1) (v2 :: r2) h

theorem processGames_state (perm : Bool) :
    ∀ (gs : List (List (List Char))) (s : List VariationEntry),
      (processGames perm s gs).map eraseEntry = s.map eraseEntry := by
  intro gs
  induction gs with
  | nil => intro s; rfl
  | cons g rest ih =>
    intro s
    unfold processGames
    rw [List.foldl_cons]
    have h1 := ih ((check_textual_variations perm s g).2)
    unfold processGames at h1
    rw [h1, check_textual_variations_state]

/-- C10: textual variation matching is deterministic across games — for
every stored variation list and every game, `check_textual_variations`
returns the same verdict whether it runs on the fresh variation state or
on the state left behind by any number of previously processed games:
`permutation_match` copies the variation record (so the any-move and
disallowed-move counters are only decremented in the copy) and clears
every shared per-move `matched` flag before matching, so two games with
identical main-line move texts always receive the same verdict. -/
theorem check_textual_variations_deterministic (perm : Bool)
    (vlist : List VariationEntry) (gs : List (List (List Char)))
    (g : List (List Char)) :
    (check_textual_variations perm (processGames perm vlist gs) g).1 =
      (check_textual_variations perm vlist g).1 :=
  check_textual_variations_congr perm (processGames perm vlist gs) vlist g
    (processGames_state perm gs vlist)

/-! ## split_variants (pgne/src/grammar.c, lines 1238-1340)

The game record as `split_variants` manipulates it: the `RESULT_TAG`
value, the game prefix comment and the main-line move chain; each move
carries its comment list, terminating result and variation chain.
Comments are modelled by identifiers (`Nat`), comment lists by lists of
them.  The C mutates a pointer structure; the embedding threads the
reachable game value through each statement of the function: redirecting
`prev->next` to the variant moves becomes rebuilding the move list from
its first `prefixLen` nodes plus the variant moves, and cutting an
appended comment chain (located by pointer identity in the C) becomes
dropping the appended suffix of known length. -/

mutual
/-- A main-line or variation move: comment list, terminating result and
variation chain. -/
inductive MvNode : Type where
  | mk : List Nat → Option String → List Var → MvNode
/-- A variation: prefix comment, suffix comment, moves. -/
inductive Var : Type where
  | mk : List Nat → List Nat → List MvNode → Var
end

/-- The comment list of a move. -/
def MvNode.comments : MvNode → List Nat
  | MvNode.mk c _ _ => c

/-- The terminating result of a move. -/
def MvNode.tres : MvNode → Option String
  | MvNode.mk _ t _ => t

/-- The variation chain of a move. -/
def MvNode.vars : MvNode → List Var
  | MvNode.mk _ _ v => v

/-- The prefix comment of a variation. -/
def Var.pre : Var → List Nat
  | Var.mk p _ _ => p

/-- The suffix comment of a variation. -/
def Var.suf : Var → List Nat
  | Var.mk _ s _ => s

/-- The move list of a variation. -/
def Var.moves : Var → List MvNode
  | Var.mk _ _ m => m

/-- The slice of the game record `split_variants` touches. -/
structure SGame where
  result : Option String
  pre : List Nat
  moves : List MvNode

mutual
/-- Number of variation records in a move. -/
def varCountNode : MvNode → Nat
  | MvNode.mk _ _ vs => varCountVars vs
/-- Number of variation records in a variation chain. -/
def varCountVars : List Var → Nat
  | [] => 0
  | v :: vs => varCountVar v + varCountVars vs
/-- Number of variation records in one variation (including itself). -/
def varCountVar : Var → Nat
  | Var.mk _ _ ms => 1 + varCountMoves ms
/-- Number of variation records in a move list. -/
def varCountMoves : List MvNode → Nat
  | [] => 0
  | m :: ms => varCountNode m + varCountMoves ms
end

/-- The suffix comments of a variation chain, in order. -/
def sufsOf (vs : List Var) : List Nat :=
  vs.foldr (fun v acc => v.suf ++ acc) []

/-- The suffix-comment gathering step applied to one move: the variants'
suffix comments move to the move's comment list and are nulled in the
variants. -/
def gatherNode (m : MvNode) : MvNode :=
  MvNode.mk (m.comments ++ sufsOf m.vars) m.tres
    (m.vars.map fun v => Var.mk v.pre [] v.moves)

/-- The gathering loop at the head of `split_variants`. -/
def gatherGame (g : SGame) : SGame :=
  { g with moves := g.moves.map gatherNode }

/-- Drop a move's variations (`free_variation`; `move->Variants = NULL`). -/
def clearVars (m : MvNode) : MvNode := MvNode.mk m.comments m.tres []

/-- The combined effect of one full pass on a move: suffix comments
migrated, variations removed. -/
def migrateNode (m : MvNode) : MvNode :=
  MvNode.mk (m.comments ++ sufsOf m.vars) m.tres []

/-- Supply a `*` terminating result on the last variant move when it has
none. -/
def supplyResult : List MvNode → List MvNode
  | [] => []
  | [m] =>
    if m.tres = none then [MvNode.mk m.comments (some "*") m.vars] else [m]
  | m :: rest => m :: supplyResult rest

/-- Append a comment chain to the comment list of the last move
(`append_comment(prefix_comment, prev->comment_list)`). -/
def appendLastComments : List MvNode → List Nat → List MvNode
  | [], _ => []
  | [m], cl => [MvNode.mk (m.comments ++ cl) m.tres m.vars]
  | m :: rest, cl => m :: appendLastComments rest cl

/-- Cut the appended comment chain back off the last move: the C locates
the chain head by pointer identity, which (the chain having been appended
at the tail) removes exactly the appended suffix. -/
def removeLastComments : List MvNode → Nat → List MvNode
  | [], _ => []
  | [m], k =>
    [MvNode.mk (m.comments.take (m.comments.length - k)) m.tres m.vars]
  | m :: rest, k => m :: removeLastComments rest k

mutual
/-- Embedding of `split_variants` (fuel-driven; `limit` is
`globals->split_depth_limit`): gather suffix comments, format the main
line, and unless the depth limit cuts recursion off, temporarily set the
RESULT tag to `*`, promote each variation in turn and restore
everything.  The returned pair is the final game state and the sequence
of formatted games. -/
def split_variants (limit : Nat) (f : Nat) (g : SGame) (depth : Nat) :
    Option (SGame × List SGame) :=
  match f with
  | 0 => none
  | f2 + 1 =>
    let g1 := gatherGame g
    if limit = 0 ∨ depth < limit then
      match svLoopMoves limit f2 { g1 with result := some "*" } 0 g1.moves
          depth with
      | none => none
      | some (g3, emitted) =>
        some ({ g3 with result := g1.result }, g1 :: emitted)
    else some (g1, [g1])
termination_by (f, 0, 0)

/-- The outer move loop of `split_variants`: `prefixLen` is the number of
already-processed moves (the `prev` chain). -/
def svLoopMoves (limit : Nat) (f : Nat) (g : SGame) (prefixLen : Nat)
    (rest : List MvNode) (depth : Nat) : Option (SGame × List SGame) :=
  match rest with
  | [] => some (g, [])
  | move :: rest2 =>
    match svLoopVars limit f g prefixLen rest2 depth move.vars with
    | none => none
    | some (g2, em1) =>
      let g3 :=
        if move.vars.isEmpty then g2
        else
          { g2 with
            moves := g2.moves.take prefixLen ++ (clearVars move :: rest2) }
      match svLoopMoves limit f g3 (prefixLen + 1) rest2 depth with
      | none => none
      | some (g4, em2) => some (g4, em1 ++ em2)
termination_by (f, 2, rest.length)

/-- The variant loop of `split_variants` at one move: each non-empty
variation replaces the tail of the main line, has its prefix comment
appended to the previous move (or the game prefix), is split recursively,
and the appended comment is removed again. -/
def svLoopVars (limit : Nat) (f : Nat) (g : SGame) (prefixLen : Nat)
    (rest2 : List MvNode) (depth : Nat) (vars : List Var) :
    Option (SGame × List SGame) :=
  match vars with
  | [] => some (g, [])
  | v :: vs =>
    if v.moves.isEmpty then svLoopVars limit f g prefixLen rest2 depth vs
    else
      let vmoves := supplyResult v.moves
      let g1 :=
        if v.pre.isEmpty then
          { g with moves := g.moves.take prefixLen ++ vmoves }
        else if prefixLen = 0 then
          { g with pre := g.pre ++ v.pre, moves := vmoves }
        else
          { g with
            moves := appendLastComments (g.moves.take prefixLen) v.pre ++
              vmoves }
      match split_variants limit f g1 (depth + 1) with
      | none => none
      | some (g2, em1) =>
        let g3 :=
          if v.pre.isEmpty then g2
          else if prefixLen = 0 then
            { g2 with pre := g2.pre.take (g2.pre.length - v.pre.length) }
          else
            { g2 with
              moves := removeLastComments (g2.moves.take prefixLen)
                v.pre.length ++ g2.moves.drop prefixLen }
        match svLoopVars limit f g3 prefixLen rest2 depth vs with
        | none => none
        | some (g4, em2) => some (g4, em1 ++ em2)
termination_by (f, 1, vars.length)
end

/-- Per-depth transformation applied by one `split_variants` pass: with
the depth limit not yet reached the variations are promoted and removed,
otherwise only the gathering step has happened. -/
def svF (limit depth : Nat) : MvNode → MvNode :=
  if limit = 0 ∨ depth < limit then migrateNode else gatherNode

/-- The game state `split_variants` leaves behind. -/
def expectedSplit (limit : Nat) (g : SGame) (depth : Nat) : SGame :=
  { g with moves := g.moves.map (svF limit depth) }

/-- All moves of the list are variation-free. -/
def VarsFree (ms : List MvNode) : Prop := ∀ m ∈ ms, m.vars = []

theorem varCountVars_map_clearSuf (vs : List Var) :
    varCountVars (vs.map fun v => Var.mk v.pre [] v.moves) =
      varCountVars vs := by
  induction vs with
  | nil => rfl
  | cons v rest ih =>
    cases v with
    | mk p s ms =>
      rw [List.map_cons]
      simp only [varCountVars]
      rw [ih]
      simp only [varCountVar, Var.pre, Var.moves]

theorem varCountNode_gatherNode (m : MvNode) :
    varCountNode (gatherNode m) = varCountNode m := by
  cases m with
  | mk c t vs =>
    simp [gatherNode, varCountNode, MvNode.vars, varCountVars_map_clearSuf]

theorem varCountMoves_map_gatherNode (ms : List MvNode) :
    varCountMoves (ms.map gatherNode) = varCountMoves ms := by
  induction ms with
  | nil => rfl
  | cons m rest ih =>
    simp [varCountMoves, varCountNode_gatherNode, ih]

theorem varCountNode_eq_vars (m : MvNode) :
    varCountNode m = varCountVars m.vars := by
  cases m with
  | mk c t vs => rfl

theorem varCountMoves_supplyResult (ms : List MvNode) :
    varCountMoves (supplyResult ms) = varCountMoves ms := by
  induction ms with
  | nil => rfl
  | cons m rest ih =>
    cases rest with
    | nil =>
      cases m with
      | mk c t vs =>
        by_cases h : t = none <;>
          simp [supplyResult, MvNode.tres, h, varCountMoves, varCountNode,
            MvNode.comments, MvNode.vars]
    | cons r rs =>
      simp [supplyResult, varCountMoves, ih]

theorem varCountMoves_append (a b : List MvNode) :
    varCountMoves (a ++ b) = varCountMoves a + varCountMoves b := by
  induction a with
  | nil => simp [varCountMoves]
  | cons m rest ih => simp [varCountMoves, ih]; omega

theorem varCountMoves_varsFree (ms : List MvNode) (h : VarsFree ms) :
    varCountMoves ms = 0 := by
  induction ms with
  | nil => rfl
  | cons m rest ih =>
    have hm : m.vars = [] := h m (List.mem_cons_self m rest)
    have hr : VarsFree rest := fun x hx => h x (List.mem_cons_of_mem m hx)
    rw [varCountMoves, varCountNode_eq_vars, hm, ih hr]
    simp [varCountVars]

theorem migrateNode_id (m : MvNode) (h : m.vars = []) : migrateNode m = m := by
  cases m with
  | mk c t vs =>
    simp only [MvNode.vars] at h
    subst h
    simp [migrateNode, MvNode.comments, MvNode.tres, MvNode.vars, sufsOf]

theorem gatherNode_id (m : MvNode) (h : m.vars = []) : gatherNode m = m := by
  cases m with
  | mk c t vs =>
    simp only [MvNode.vars] at h
    subst h
    simp [gatherNode, MvNode.comments, MvNode.tres, MvNode.vars, sufsOf]

theorem clearVars_id (m : MvNode) (h : m.vars = []) : clearVars m = m := by
  cases m with
  | mk c t vs =>
    simp only [MvNode.vars] at h
    subst h
    simp [clearVars, MvNode.comments, MvNode.tres]

theorem svF_id (limit depth : Nat) (m : MvNode) (h : m.vars = []) :
    svF limit depth m = m := by
  unfold svF
  by_cases hc : limit = 0 ∨ depth < limit
  · rw [if_pos hc]; exact migrateNode_id m h
  · rw [if_neg hc]; exact gatherNode_id m h

theorem map_svF_varsFree (limit depth : Nat) (ms : List MvNode)
    (h : VarsFree ms) : ms.map (svF limit depth) = ms := by
  induction ms with
  | nil => rfl
  | cons m rest ih =>
    have hm := h m (List.mem_cons_self m rest)
    have hr : VarsFree rest := fun x hx => h x (List.mem_cons_of_mem m hx)
    simp [svF_id limit depth m hm, ih hr]

theorem clearVars_gatherNode (m : MvNode) :
    clearVars (gatherNode m) = migrateNode m := rfl

theorem appendLastComments_length (ms : List MvNode) (cl : List Nat) :
    (appendLastComments ms cl).length = ms.length := by
  induction ms with
  | nil => rfl
  | cons m rest ih =>
    cases rest with
    | nil => rfl
    | cons r rs => simp [appendLastComments]; simpa using ih

theorem VarsFree_appendLastComments (ms : List MvNode) (cl : List Nat)
    (h : VarsFree ms) : VarsFree (appendLastComments ms cl) := by
  induction ms with
  | nil => intro x hx; cases hx
  | cons m rest ih =>
    cases rest with
    | nil =>
      intro x hx
      cases m with
      | mk c t vs =>
        simp [appendLastComments] at hx
        subst hx
        exact h (MvNode.mk c t vs) (by simp)
    | cons r rs =>
      intro x hx
      have hstep : appendLastComments (m :: r :: rs) cl =
          m :: appendLastComments (r :: rs) cl := rfl
      rw [hstep] at hx
      rcases List.mem_cons.mp hx with hx1 | hx2
      · subst hx1; exact h x (List.mem_cons_self x _)
      · exact ih (fun y hy => h y (List.mem_cons_of_mem m hy)) x hx2

theorem removeLastComments_appendLastComments (ms : List MvNode)
    (cl : List Nat) (h : ms ≠ []) :
    removeLastComments (appendLastComments ms cl) cl.length = ms := by
  induction ms with
  | nil => exact absurd rfl h
  | cons m rest ih =>
    cases rest with
    | nil =>
      cases m with
      | mk c t vs =>
        simp [appendLastComments, removeLastComments, MvNode.comments,
          MvNode.tres, MvNode.vars]
    | cons r rs =>
      have hstep1 : appendLastComments (m :: r :: rs) cl =
          m :: appendLastComments (r :: rs) cl := rfl
      rw [hstep1]
      have hne2 : appendLastComments (r :: rs) cl ≠ [] := by
        intro hcon
        have := congrArg List.length hcon
        rw [appendLastComments_length] at this
        simp at this
      cases hq : appendLastComments (r :: rs) cl with
      | nil => exact absurd hq hne2
      | cons q qs =>
        have hstep2 : removeLastComments (m :: q :: qs) cl.length =
            m :: removeLastComments (q :: qs) cl.length := rfl
        rw [hstep2, ← hq, ih (by simp)]

theorem VarsFree_append (a b : List MvNode) (ha : VarsFree a)
    (hb : VarsFree b) : VarsFree (a ++ b) := by
  intro x hx
  rcases List.mem_append.mp hx with h1 | h2
  · exact ha x h1
  · exact hb x h2

theorem SGame_ext (a b : SGame) (h1 : a.result = b.result)
    (h2 : a.pre = b.pre) (h3 : a.moves = b.moves) : a = b := by
  cases a
  cases b
  simp_all

theorem take_length_append {α : Type} (a b : List α) :
    (a ++ b).take a.length = a := by
  induction a with
  | nil => rfl
  | cons x xs ih => simp [ih]

theorem isEmpty_eq_nil {α : Type} (l : List α) :
    l.isEmpty = true ↔ l = [] := by
  cases l <;> simp [List.isEmpty]

theorem map_clearVars_gatherNode (ms : List MvNode) :
    (ms.map gatherNode).map clearVars = ms.map migrateNode := by
  induction ms with
  | nil => rfl
  | cons m r ih => simp only [List.map_cons, clearVars_gatherNode, ih]

theorem expectedSplit_result (limit : Nat) (g : SGame) (depth : Nat) :
    (expectedSplit limit g depth).result = g.result := rfl

theorem expectedSplit_pre (limit : Nat) (g : SGame) (depth : Nat) :
    (expectedSplit limit g depth).pre = g.pre := rfl

theorem expectedSplit_moves (limit : Nat) (g : SGame) (depth : Nat) :
    (expectedSplit limit g depth).moves = g.moves.map (svF limit depth) :=
  rfl

theorem svF_eq_migrate (limit depth : Nat) (hd : limit = 0 ∨ depth < limit) :
    svF limit depth = migrateNode := by
  unfold svF
  rw [if_pos hd]

theorem svF_eq_gather (limit depth : Nat)
    (hd : ¬(limit = 0 ∨ depth < limit)) :
    svF limit depth = gatherNode := by
  unfold svF
  rw [if_neg hd]

theorem varCountVar_eq (v : Var) :
    varCountVar v = 1 + varCountMoves v.moves := by
  cases v with
  | mk p s ms => simp [varCountVar, Var.moves]

/-- `split_variants` returns the per-depth expected transform whenever
the fuel exceeds the number of variation records. -/
def SplitP (limit k : Nat) : Prop :=
  ∀ g depth, varCountMoves g.moves < k →
    ∃ p, split_variants limit k g depth = some p ∧
      p.1 = expectedSplit limit g depth

/-- The variant loop restores result, game prefix and the processed
prefix of the move list. -/
def VarsP (limit k : Nat) : Prop :=
  ∀ (g : SGame) (pre0 : List MvNode) (rest2 : List MvNode) (depth : Nat)
    (vars : List Var),
    g.moves.take pre0.length = pre0 → VarsFree pre0 →
    varCountVars vars ≤ k →
    ∃ p, svLoopVars limit k g pre0.length rest2 depth vars = some p ∧
      p.1.result = g.result ∧ p.1.pre = g.pre ∧
      p.1.moves.take pre0.length = pre0

/-- The move loop clears the variations of the remaining moves and
changes nothing else. -/
def MovesP (limit k : Nat) : Prop :=
  ∀ (g : SGame) (pre0 rest : List MvNode) (depth : Nat),
    g.moves = pre0 ++ rest → VarsFree pre0 → varCountMoves rest ≤ k →
    ∃ p, svLoopMoves limit k g pre0.length rest depth = some p ∧
      p.1 = { g with moves := pre0 ++ rest.map clearVars }

theorem split_variants_succ (limit f2 : Nat) (g : SGame) (depth : Nat) :
    split_variants limit (f2 + 1) g depth =
      if limit = 0 ∨ depth < limit then
        match svLoopMoves limit f2 { gatherGame g with result := some "*" }
            0 (gatherGame g).moves depth with
        | none => none
        | some (g3, emitted) =>
          some ({ g3 with result := (gatherGame g).result },
            gatherGame g :: emitted)
      else some (gatherGame g, [gatherGame g]) := by
  simp only [split_variants]

theorem svLoopMoves_nil (limit f : Nat) (g : SGame) (pl : Nat)
    (depth : Nat) :
    svLoopMoves limit f g pl [] depth = some (g, []) := by
  simp only [svLoopMoves]

theorem svLoopMoves_cons (limit f : Nat) (g : SGame) (pl : Nat)
    (move : MvNode) (rest2 : List MvNode) (depth : Nat) :
    svLoopMoves limit f g pl (move :: rest2) depth =
      match svLoopVars limit f g pl rest2 depth move.vars with
      | none => none
      | some (g2, em1) =>
        match svLoopMoves limit f
            (if move.vars.isEmpty then g2
             else { g2 with moves := g2.moves.take pl ++ (clearVars move :: rest2) })
            (pl + 1) rest2 depth with
        | none => none
        | some (g4, em2) => some (g4, em1 ++ em2) := by
  simp only [svLoopMoves]

theorem svLoopVars_nil (limit f : Nat) (g : SGame) (pl : Nat)
    (rest2 : List MvNode) (depth : Nat) :
    svLoopVars limit f g pl rest2 depth [] = some (g, []) := by
  simp only [svLoopVars]

theorem svLoopVars_cons (limit f : Nat) (g : SGame) (pl : Nat)
    (rest2 : List MvNode) (depth : Nat) (v : Var) (vs : List Var) :
    svLoopVars limit f g pl rest2 depth (v :: vs) =
      if v.moves.isEmpty then svLoopVars limit f g pl rest2 depth vs
      else
        match split_variants limit f
            (if v.pre.isEmpty then
              { g with moves := g.moves.take pl ++ supplyResult v.moves }
             else if pl = 0 then
              { g with pre := g.pre ++ v.pre, moves := supplyResult v.moves }
             else
              { g with moves := appendLastComments (g.moves.take pl) v.pre ++ supplyResult v.moves })
            (depth + 1) with
        | none => none
        | some (g2, em1) =>
          match svLoopVars limit f
              (if v.pre.isEmpty then g2
               else if pl = 0 then
                { g2 with pre := g2.pre.take (g2.pre.length - v.pre.length) }
               else
                { g2 with moves := removeLastComments (g2.moves.take pl) v.pre.length ++ g2.moves.drop pl })
              pl rest2 depth vs with
          | none => none
          | some (g4, em2) => some (g4, em1 ++ em2) := by
  simp only [svLoopVars]

theorem svLoopMoves_cons_eq (limit f : Nat) (g : SGame) (pl : Nat)
    (move : MvNode) (rest2 : List MvNode) (depth : Nat)
    (g2 g3 g4 : SGame) (em1 em2 : List SGame)
    (h1 : svLoopVars limit f g pl rest2 depth move.vars = some (g2, em1))
    (h3 : g3 = (if move.vars.isEmpty then g2
      else { g2 with moves := g2.moves.take pl ++ (clearVars move :: rest2) }))
    (h2 : svLoopMoves limit f g3 (pl + 1) rest2 depth = some (g4, em2)) :
    svLoopMoves limit f g pl (move :: rest2) depth =
      some (g4, em1 ++ em2) := by
  rw [svLoopMoves_cons, h1]
  show (match svLoopMoves limit f
      (if move.vars.isEmpty then g2
       else { g2 with moves := g2.moves.take pl ++ (clearVars move :: rest2) })
      (pl + 1) rest2 depth with
    | none => none
    | some (g4, em2) => some (g4, em1 ++ em2)) = some (g4, em1 ++ em2)
  rw [← h3, h2]

theorem svLoopVars_cons_skip (limit f : Nat) (g : SGame) (pl : Nat)
    (rest2 : List MvNode) (depth : Nat) (v : Var) (vs : List Var)
    (hvm : v.moves.isEmpty = true) :
    svLoopVars limit f g pl rest2 depth (v :: vs) =
      svLoopVars limit f g pl rest2 depth vs := by
  rw [svLoopVars_cons, if_pos hvm]

theorem svLoopVars_cons_eq (limit f : Nat) (g : SGame) (pl : Nat)
    (rest2 : List MvNode) (depth : Nat) (v : Var) (vs : List Var)
    (g1 g2 g3 g4 : SGame) (em1 em2 : List SGame)
    (hvm : ¬(v.moves.isEmpty = true))
    (hg1 : g1 = (if v.pre.isEmpty then
        { g with moves := g.moves.take pl ++ supplyResult v.moves }
      else if pl = 0 then
        { g with pre := g.pre ++ v.pre, moves := supplyResult v.moves }
      else
        { g with moves := appendLastComments (g.moves.take pl) v.pre ++ supplyResult v.moves }))
    (h1 : split_variants limit f g1 (depth + 1) = some (g2, em1))
    (hg3 : g3 = (if v.pre.isEmpty then g2
      else if pl = 0 then
        { g2 with pre := g2.pre.take (g2.pre.length - v.pre.length) }
      else
        { g2 with moves := removeLastComments (g2.moves.take pl) v.pre.length ++ g2.moves.drop pl }))
    (h2 : svLoopVars limit f g3 pl rest2 depth vs = some (g4, em2)) :
    svLoopVars limit f g pl rest2 depth (v :: vs) =
      some (g4, em1 ++ em2) := by
  rw [svLoopVars_cons, if_neg hvm, ← hg1, h1]
  show (match svLoopVars limit f
      (if v.pre.isEmpty then g2
       else if pl = 0 then
        { g2 with pre := g2.pre.take (g2.pre.length - v.pre.length) }
       else
        { g2 with moves := removeLastComments (g2.moves.take pl) v.pre.length ++ g2.moves.drop pl })
      pl rest2 depth vs with
    | none => none
    | some (g4, em2) => some (g4, em1 ++ em2)) = some (g4, em1 ++ em2)
  rw [← hg3, h2]

theorem splitP_of_movesP (limit k2 : Nat) (hm : MovesP limit k2) :
    SplitP limit (k2 + 1) := by
  intro g depth hcount
  have hgmoves : (gatherGame g).moves = g.moves.map gatherNode := rfl
  by_cases hd : limit = 0 ∨ depth < limit
  · have hcall := hm { gatherGame g with result := some "*" } []
      ((gatherGame g).moves) depth (by simp)
      (fun x hx => absurd hx (List.not_mem_nil x))
      (by rw [hgmoves, varCountMoves_map_gatherNode]; omega)
    obtain ⟨p, hp, hpeq⟩ := hcall
    obtain ⟨g3, em⟩ := p
    simp only [List.length_nil] at hp
    have hg3 : g3 = { ({ gatherGame g with result := some "*" } : SGame)
        with moves := [] ++ ((gatherGame g).moves).map clearVars } := by
      simpa using hpeq
    refine ⟨({ g3 with result := (gatherGame g).result },
      gatherGame g :: em), ?_, ?_⟩
    · rw [split_variants_succ, if_pos hd, hp]
    · apply SGame_ext
      · rfl
      · rw [hg3]
        rfl
      · show g3.moves = (expectedSplit limit g depth).moves
        rw [expectedSplit_moves, svF_eq_migrate limit depth hd, hg3]
        show [] ++ ((gatherGame g).moves).map clearVars =
          g.moves.map migrateNode
        rw [List.nil_append, hgmoves, map_clearVars_gatherNode]
  · refine ⟨(gatherGame g, [gatherGame g]), ?_, ?_⟩
    · rw [split_variants_succ, if_neg hd]
    · apply SGame_ext
      · rfl
      · rfl
      · show (gatherGame g).moves = (expectedSplit limit g depth).moves
        rw [expectedSplit_moves, svF_eq_gather limit depth hd, hgmoves]

theorem movesP_of_varsP (limit k : Nat) (hv : VarsP limit k) :
    MovesP limit k := by
  intro g pre0 rest depth hmoves hfree hcount
  induction rest generalizing g pre0 with
  | nil =>
    refine ⟨(g, []), svLoopMoves_nil limit k g pre0.length depth, ?_⟩
    apply SGame_ext
    · rfl
    · rfl
    · show g.moves = pre0 ++ List.map clearVars []
      rw [hmoves]
      simp
  | cons move rest2 ih =>
    have hvc : varCountVars move.vars ≤ k := by
      rw [varCountMoves, varCountNode_eq_vars] at hcount
      omega
    have hrc : varCountMoves rest2 ≤ k := by
      rw [varCountMoves] at hcount
      omega
    have htake : g.moves.take pre0.length = pre0 := by
      rw [hmoves]
      exact take_length_append pre0 (move :: rest2)
    by_cases hmv : move.vars = []
    · obtain ⟨p2, hp2, hp2eq⟩ := ih g (pre0 ++ [move])
        (by rw [hmoves]; simp)
        (VarsFree_append pre0 [move] hfree
          (by intro x hx; simp at hx; subst hx; exact hmv)) hrc

      obtain ⟨g4, em2⟩ := p2
      have hlen : (pre0 ++ [move]).length = pre0.length + 1 := by simp
      rw [hlen] at hp2
      refine ⟨(g4, [] ++ em2), ?_, ?_⟩
      · exact svLoopMoves_cons_eq limit k g pre0.length move rest2 depth
          g g g4 [] em2 (by rw [hmv, svLoopVars_nil]) (by simp [hmv]) hp2
      · have h4 : g4 = { g with
            moves := (pre0 ++ [move]) ++ List.map clearVars rest2 } := by
          simpa using hp2eq
        rw [h4]
        apply SGame_ext
        · rfl
        · rfl
        · show (pre0 ++ [move]) ++ List.map clearVars rest2 =
            pre0 ++ List.map clearVars (move :: rest2)
          rw [List.map_cons, clearVars_id move hmv, List.append_assoc]
          rfl
    · obtain ⟨p, hp, hres, hpre, htk⟩ :=
        hv g pre0 rest2 depth move.vars htake hfree hvc
      obtain ⟨g2, em1⟩ := p
      simp only [Prod.fst] at hres hpre htk
      have hne : ¬(move.vars.isEmpty = true) := by
        rw [isEmpty_eq_nil]
        exact hmv
      have hg3moves : ({ g2 with moves := g2.moves.take pre0.length ++
          (clearVars move :: rest2) } : SGame).moves =
          (pre0 ++ [clearVars move]) ++ rest2 := by
        show g2.moves.take pre0.length ++ (clearVars move :: rest2) =
          (pre0 ++ [clearVars move]) ++ rest2
        rw [htk]
        simp
      obtain ⟨p2, hp2, hp2eq⟩ := ih
        { g2 with moves := g2.moves.take pre0.length ++
          (clearVars move :: rest2) }
        (pre0 ++ [clearVars move]) hg3moves
        (VarsFree_append pre0 [clearVars move] hfree
          (by intro x hx; simp at hx; subst hx; rfl)) hrc
      obtain ⟨g4, em2⟩ := p2
      have hlen : (pre0 ++ [clearVars move]).length = pre0.length + 1 := by
        simp
      rw [hlen] at hp2
      refine ⟨(g4, em1 ++ em2), ?_, ?_⟩
      · exact svLoopMoves_cons_eq limit k g pre0.length move rest2 depth
          g2 { g2 with moves := g2.moves.take pre0.length ++
            (clearVars move :: rest2) } g4 em1 em2 hp
          (if_neg hne).symm hp2
      · have h4 : g4 = { ({ g2 with moves := g2.moves.take pre0.length ++
            (clearVars move :: rest2) } : SGame) with
            moves := (pre0 ++ [clearVars move]) ++
              List.map clearVars rest2 } := by
          simpa using hp2eq
        rw [h4]
        apply SGame_ext
        · exact hres
        · exact hpre
        · show (pre0 ++ [clearVars move]) ++ List.map clearVars rest2 =
            pre0 ++ List.map clearVars (move :: rest2)
          rw [List.map_cons, List.append_assoc]
          rfl

theorem varsP_of_splitP (limit k : Nat) (hs : SplitP limit k) :
    VarsP limit k := by
  intro g pre0 rest2 depth vars htake hfree hcount
  induction vars generalizing g with
  | nil =>
    exact ⟨(g, []), svLoopVars_nil limit k g pre0.length rest2 depth,
      rfl, rfl, htake⟩
  | cons v vs ih =>
    have hvarv : varCountVar v = 1 + varCountMoves v.moves :=
      varCountVar_eq v
    simp only [varCountVars] at hcount
    have hvs : varCountVars vs ≤ k := by omega
    by_cases hvm : v.moves.isEmpty = true
    · obtain ⟨p, hp, h1, h2, h3⟩ := ih g htake hvs
      exact ⟨p, by
        rw [svLoopVars_cons_skip limit k g pre0.length rest2 depth v vs hvm]
        exact hp, h1, h2, h3⟩
    · have hvmlt : varCountMoves v.moves < k := by
        rw [hvarv] at hcount
        omega
      by_cases hpe : v.pre.isEmpty = true
      · have hg1m : ({ g with moves := g.moves.take pre0.length ++ supplyResult v.moves } : SGame).moves = pre0 ++ supplyResult v.moves := by
          show g.moves.take pre0.length ++ supplyResult v.moves = _
          rw [htake]
        have hg1c : varCountMoves ({ g with moves := g.moves.take pre0.length ++ supplyResult v.moves } : SGame).moves < k := by
          rw [hg1m, varCountMoves_append, varCountMoves_varsFree pre0 hfree,
            varCountMoves_supplyResult]
          omega
        obtain ⟨p, hp, hpeq⟩ := hs _ (depth + 1) hg1c
        obtain ⟨g2, em1⟩ := p
        have hpeq2 : g2 = expectedSplit limit { g with moves := g.moves.take pre0.length ++ supplyResult v.moves } (depth + 1) := by
          simpa using hpeq
        have hg2res : g2.result = g.result := by rw [hpeq2]; rfl
        have hg2pre : g2.pre = g.pre := by rw [hpeq2]; rfl
        have hg2moves : g2.moves = pre0 ++ (supplyResult v.moves).map (svF limit (depth + 1)) := by
          rw [hpeq2, expectedSplit_moves, hg1m, List.map_append,
            map_svF_varsFree limit (depth + 1) pre0 hfree]
        have hg2take : g2.moves.take pre0.length = pre0 := by
          rw [hg2moves]
          exact take_length_append pre0 _
        obtain ⟨p2, hp2, h1, h2, h3⟩ := ih g2 hg2take hvs
        obtain ⟨g4, em2⟩ := p2
        refine ⟨(g4, em1 ++ em2), ?_, ?_, ?_, ?_⟩
        · exact svLoopVars_cons_eq limit k g pre0.length rest2 depth v vs
            { g with moves := g.moves.take pre0.length ++ supplyResult v.moves }
            g2 g2 g4 em1 em2 hvm
            (if_pos hpe).symm hp (if_pos hpe).symm hp2
        · exact h1.trans hg2res
        · exact h2.trans hg2pre
        · exact h3
      · by_cases hp0 : pre0.length = 0
        · have hpre0nil : pre0 = [] := List.length_eq_zero.mp hp0
          have hg1c : varCountMoves ({ g with pre := g.pre ++ v.pre, moves := supplyResult v.moves } : SGame).moves < k := by
            show varCountMoves (supplyResult v.moves) < k
            rw [varCountMoves_supplyResult]
            omega
          obtain ⟨p, hp, hpeq⟩ := hs _ (depth + 1) hg1c
          obtain ⟨g2, em1⟩ := p
          have hpeq2 : g2 = expectedSplit limit { g with pre := g.pre ++ v.pre, moves := supplyResult v.moves } (depth + 1) := by
            simpa using hpeq
          have hg2res : g2.result = g.result := by rw [hpeq2]; rfl
          have hg2pre : g2.pre = g.pre ++ v.pre := by rw [hpeq2]; rfl
          have hg3pre : ({ g2 with pre := g2.pre.take (g2.pre.length - v.pre.length) } : SGame).pre = g.pre := by
            show g2.pre.take (g2.pre.length - v.pre.length) = g.pre
            rw [hg2pre]
            have hsub : (g.pre ++ v.pre).length - v.pre.length = g.pre.length := by
              rw [List.length_append]
              omega
            rw [hsub]
            exact take_length_append g.pre v.pre
          have hg3take : ({ g2 with pre := g2.pre.take (g2.pre.length - v.pre.length) } : SGame).moves.take pre0.length = pre0 := by
            rw [hpre0nil]
            simp
          obtain ⟨p2, hp2, h1, h2, h3⟩ := ih { g2 with pre := g2.pre.take (g2.pre.length - v.pre.length) } hg3take hvs
          obtain ⟨g4, em2⟩ := p2
          refine ⟨(g4, em1 ++ em2), ?_, ?_, ?_, ?_⟩
          · exact svLoopVars_cons_eq limit k g pre0.length rest2 depth v vs
              { g with pre := g.pre ++ v.pre, moves := supplyResult v.moves }
              g2 { g2 with pre := g2.pre.take (g2.pre.length - v.pre.length) }
              g4 em1 em2 hvm
              (by rw [if_neg hpe, if_pos hp0]) hp
              (by rw [if_neg hpe, if_pos hp0]) hp2
          · exact h1.trans hg2res
          · exact h2.trans hg3pre
          · exact h3
        · have hpre0ne : pre0 ≠ [] := fun hcon => hp0 (by rw [hcon]; rfl)
          have hg1m : ({ g with moves := appendLastComments (g.moves.take pre0.length) v.pre ++ supplyResult v.moves } : SGame).moves = appendLastComments pre0 v.pre ++ supplyResult v.moves := by
            show appendLastComments (g.moves.take pre0.length) v.pre ++ supplyResult v.moves = _
            rw [htake]
          have hfree2 : VarsFree (appendLastComments pre0 v.pre) :=
            VarsFree_appendLastComments pre0 v.pre hfree
          have hg1c : varCountMoves ({ g with moves := appendLastComments (g.moves.take pre0.length) v.pre ++ supplyResult v.moves } : SGame).moves < k := by
            rw [hg1m, varCountMoves_append,
              varCountMoves_varsFree _ hfree2, varCountMoves_supplyResult]
            omega
          obtain ⟨p, hp, hpeq⟩ := hs _ (depth + 1) hg1c
          obtain ⟨g2, em1⟩ := p
          have hpeq2 : g2 = expectedSplit limit { g with moves := appendLastComments (g.moves.take pre0.length) v.pre ++ supplyResult v.moves } (depth + 1) := by
            simpa using hpeq
          have hg2res : g2.result = g.result := by rw [hpeq2]; rfl
          have hg2pre : g2.pre = g.pre := by rw [hpeq2]; rfl
          have hg2moves : g2.moves = appendLastComments pre0 v.pre ++ (supplyResult v.moves).map (svF limit (depth + 1)) := by
            rw [hpeq2, expectedSplit_moves, hg1m, List.map_append,
              map_svF_varsFree limit (depth + 1) _ hfree2]
          have hlen2 : (appendLastComments pre0 v.pre).length = pre0.length :=
            appendLastComments_length pre0 v.pre
          have hg2take : g2.moves.take pre0.length = appendLastComments pre0 v.pre := by
            rw [hg2moves, ← hlen2]
            exact take_length_append _ _
          have hg3m : ({ g2 with moves := removeLastComments (g2.moves.take pre0.length) v.pre.length ++ g2.moves.drop pre0.length } : SGame).moves = pre0 ++ g2.moves.drop pre0.length := by
            show removeLastComments (g2.moves.take pre0.length) v.pre.length ++ g2.moves.drop pre0.length = _
            rw [hg2take,
              removeLastComments_appendLastComments pre0 v.pre hpre0ne]
          have hg3take : ({ g2 with moves := removeLastComments (g2.moves.take pre0.length) v.pre.length ++ g2.moves.drop pre0.length } : SGame).moves.take pre0.length = pre0 := by
            rw [hg3m]
            exact take_length_append pre0 _
          obtain ⟨p2, hp2, h1, h2, h3⟩ := ih { g2 with moves := removeLastComments (g2.moves.take pre0.length) v.pre.length ++ g2.moves.drop pre0.length } hg3take hvs
          obtain ⟨g4, em2⟩ := p2
          refine ⟨(g4, em1 ++ em2), ?_, ?_, ?_, ?_⟩
          · exact svLoopVars_cons_eq limit k g pre0.length rest2 depth v vs
              { g with moves := appendLastComments (g.moves.take pre0.length) v.pre ++ supplyResult v.moves }
              g2 { g2 with moves := removeLastComments (g2.moves.take pre0.length) v.pre.length ++ g2.moves.drop pre0.length }
              g4 em1 em2 hvm
              (by rw [if_neg hpe, if_neg hp0]) hp
              (by rw [if_neg hpe, if_neg hp0]) hp2
          · exact h1.trans hg2res
          · exact h2.trans hg2pre
          · exact h3

theorem sv_all (limit : Nat) :
    ∀ k, SplitP limit k ∧ VarsP limit k ∧ MovesP limit k := by
  have key : ∀ n k, k ≤ n →
      SplitP limit k ∧ VarsP limit k ∧ MovesP limit k := by
    intro n
    induction n with
    | zero =>
      intro k hk
      have hk0 : k = 0 := Nat.le_zero.mp hk
      subst hk0
      have hsplit : SplitP limit 0 := fun g depth h =>
        absurd h (Nat.not_lt_zero _)
      have hvars := varsP_of_splitP limit 0 hsplit
      exact ⟨hsplit, hvars, movesP_of_varsP limit 0 hvars⟩
    | succ n ihn =>
      intro k hk
      rcases Nat.lt_or_ge k (n + 1) with hlt | hge
      · exact ihn k (Nat.lt_succ_iff.mp hlt)
      · have hkeq : k = n + 1 := Nat.le_antisymm hk hge
        subst hkeq
        have hsplit : SplitP limit (n + 1) :=
          splitP_of_movesP limit n (ihn n le_rfl).2.2
        have hvars := varsP_of_splitP limit (n + 1) hsplit
        exact ⟨hsplit, hvars, movesP_of_varsP limit (n + 1) hvars⟩
  exact fun k => key k k le_rfl

/-- The concrete example game: two main-line moves, the second carrying
one variation with a prefix comment, a suffix comment and one move. -/
def exVarMove : MvNode := MvNode.mk [3] none []

/-- The example variation. -/
def exVar : Var := Var.mk [9] [7] [exVarMove]

/-- First example move. -/
def exMove1 : MvNode := MvNode.mk [1] none []

/-- Second example move. -/
def exMove2 : MvNode := MvNode.mk [2] (some "1-0") [exVar]

/-- The example game. -/
def exGame : SGame := ⟨some "1-0", [], [exMove1, exMove2]⟩

/-- **C9**: `split_variants` is effect-free on the game record apart from
the intended suffix-comment gathering and variation removal: called on
the whole game (depth 0) with fuel exceeding the number of variation
records, it succeeds and the returned game carries the entry value of the
RESULT tag (it is only temporarily `*` while variant lines are emitted),
the same game prefix comment, and the original main-line move chain
(each move keeping its comments and terminating result, with the
variants' suffix comments migrated onto it and its variation chain
removed); in particular every variation prefix comment appended to the
preceding move or to the game prefix during emission has been removed
again. -/
theorem split_variants_frame (limit fuel : Nat) (g : SGame)
    (hfuel : varCountMoves g.moves < fuel) :
    ∃ p, split_variants limit fuel g 0 = some p ∧
      p.1.result = g.result ∧ p.1.pre = g.pre ∧
      p.1.moves = g.moves.map migrateNode := by
  obtain ⟨p, hp, heq⟩ := (sv_all limit fuel).1 g 0 hfuel
  refine ⟨p, hp, ?_, ?_, ?_⟩
  · rw [heq, expectedSplit_result]
  · rw [heq, expectedSplit_pre]
  · rw [heq, expectedSplit_moves,
      svF_eq_migrate limit 0 (by omega)]

/-- Witness: the frame theorem applied to the concrete example game with
fuel 10 and no depth limit. -/
theorem split_variants_frame_witness :
    ∃ p, split_variants 0 10 exGame 0 = some p ∧
      p.1.result = exGame.result ∧ p.1.pre = exGame.pre ∧
      p.1.moves = exGame.moves.map migrateNode :=
  split_variants_frame 0 10 exGame
    (by simp [exGame, exMove1, exMove2, exVar, exVarMove, varCountMoves,
      varCountNode, varCountVars, varCountVar])

end PgnExtract
